import Mathlib

/-!
# iLight 2024 main firmware: event-trace embedding

Shallow embedding of `src/Embedded Software/iLight_2024_main/src/main.cpp`.

Every call the firmware makes into the Arduino core, the VL53L1X driver or
FreeRTOS is recorded as one `Event`; a function of the firmware becomes the
list of events it issues, in program order.  Values that come back from the
hardware (the result of `init()`, a distance read, the timeout flag) are
inputs of the embedding.
-/

namespace ILight

/-- Second argument of `pinMode`. -/
inductive PinMode where
  | OUTPUT
  | INPUT
  deriving DecidableEq, Repr

/-- Second argument of `digitalWrite`. -/
inductive Level where
  | LOW
  | HIGH
  deriving DecidableEq, Repr

/-- The two task handles, `handle_1` (task_1) and `handle_2` (task_2). -/
inductive Handle where
  | handle_1
  | handle_2
  deriving DecidableEq, Repr

/-- One call made by the firmware.  Calls that return a value carry it. -/
inductive Event where
  | pinMode (pin : Nat) (mode : PinMode)
  | digitalWrite (pin : Nat) (val : Level)
  | delay (ms : Nat)
  | setTimeout (i : Nat) (ms : Nat)
  | setROICenter (i : Nat) (spad : Nat)
  | setROISize (i : Nat) (w : Nat) (h : Nat)
  | init (i : Nat) (ok : Bool)
  | setAddress (i : Nat) (addr : Nat)
  | startContinuous (i : Nat) (period : Nat)
  | serial
  | restart
  | ledcWrite (chan : Nat) (duty : Int)
  | vTaskDelay (ticks : Nat)
  | read (i : Nat) (val : Nat)
  | timeoutOccurred (i : Nat) (res : Bool)
  | vTaskSuspend (h : Handle)
  | vTaskResume (h : Handle)
  deriving DecidableEq, Repr

open Event

/-- Source constant `PWM_channel`. -/
def PWM_channel : Nat := 0

/-- Source constant `PWM_res`: PWM resolution in bits. -/
def PWM_res : Nat := 8

/-- Loop `for (int d = start; d <= hi; d++) body(d)`, started at `d`. -/
def forUp (hi : Int) (body : Int → List Event) (d : Int) : List Event :=
  if d ≤ hi then body d ++ forUp hi body (d + 1) else []
termination_by (hi + 1 - d).toNat
decreasing_by omega

/-- Loop `for (int d = start; d >= lo; d--) body(d)`, started at `d`. -/
def forDown (lo : Int) (body : Int → List Event) (d : Int) : List Event :=
  if d ≥ lo then body d ++ forDown lo body (d - 1) else []
termination_by (d + 1 - lo).toNat
decreasing_by omega

/-- Function `pulse_idle`.  `tick` is `portTICK_PERIOD_MS`, which the source
takes from the FreeRTOS configuration; `vTaskDelay(30 / portTICK_PERIOD_MS)`
is recorded with its argument in ticks. -/
def pulse_idle (tick : Nat) : List Event :=
  forUp 120 (fun dutyCycle => [ledcWrite PWM_channel dutyCycle, vTaskDelay (30 / tick)]) 30
    ++ [vTaskDelay (1000 / tick)]
    ++ forDown 30 (fun dutyCycle => [ledcWrite PWM_channel dutyCycle, vTaskDelay (30 / tick)]) 120
    ++ [vTaskDelay (1000 / tick)]

/-- Function `pulse_awaken`. -/
def pulse_awaken (tick : Nat) : List Event :=
  forUp 255 (fun dutyCycle => [ledcWrite PWM_channel dutyCycle, vTaskDelay (20 / tick)]) 30
    ++ [vTaskDelay (1500 / tick)]
    ++ forDown 30 (fun dutyCycle => [ledcWrite PWM_channel dutyCycle, vTaskDelay (20 / tick)]) 255

/-- How an observed piece of the firmware ends: it ran to its end, or it
called `ESP.restart()`.  The restart is the reset of the system and does not
return; in `sensor_init` the source also follows the call with `while (1);`. -/
inductive Outcome where
  | completed
  | restarted
  deriving DecidableEq, Repr

/-- Events issued by a piece of the firmware, and how it ended. -/
structure Run where
  trace : List Event
  outcome : Outcome
  deriving DecidableEq, Repr

/-- Source constant `sensor_count`. -/
def sensor_count : Nat := 1

/-- Source constant `xshutPins`, as the map from index to pin. -/
def xshutPins (i : Nat) : Nat := [4, 5, 2, 17, 0, 16].getD i 0

/-- Source global `sensor_threshold`. -/
def sensor_threshold : Nat := 10

/-- First loop of `sensor_init`, started at index `i`:
`for (int i = 0; i < count; i++) { pinMode(.., OUTPUT); digitalWrite(.., LOW); }`. -/
def sensor_init_reset (count : Nat) (xshut_arr : Nat → Nat) (i : Nat) : List Event :=
  if i < count then
    [pinMode (xshut_arr i) PinMode.OUTPUT, digitalWrite (xshut_arr i) Level.LOW]
      ++ sensor_init_reset count xshut_arr (i + 1)
  else []
termination_by count - i

/-- Second loop of `sensor_init`, started at index `i`.  `initOk i` is what
`sensors[i].init()` returns.  The argument of `setAddress` is the value of the
source expression `0x2A + i`. -/
def sensor_init_enable (count : Nat) (xshut_arr : Nat → Nat) (initOk : Nat → Bool)
    (i : Nat) : Run :=
  if i < count then
    let head := [pinMode (xshut_arr i) PinMode.INPUT, delay 10, setTimeout i 500,
      setROICenter i 199, setROISize i 10 10, init i (initOk i)]
    if !initOk i then
      ⟨head ++ [serial, restart], Outcome.restarted⟩
    else
      let rest := sensor_init_enable count xshut_arr initOk (i + 1)
      ⟨head ++ [setAddress i (0x2A + i), startContinuous i 50] ++ rest.trace, rest.outcome⟩
  else ⟨[], Outcome.completed⟩
termination_by count - i

/-- Function `sensor_init`. -/
def sensor_init (count : Nat) (xshut_arr : Nat → Nat) (initOk : Nat → Bool) : Run :=
  let r := sensor_init_enable count xshut_arr initOk 0
  ⟨sensor_init_reset count xshut_arr 0 ++ [delay 10] ++ r.trace, r.outcome⟩

/-- One iteration of the `while (1)` loop of `task_1`; `debug` tells whether
`DEBUG` is defined. -/
def task_1_body (tick : Nat) (debug : Bool) : List Event :=
  pulse_idle tick ++ (if debug then [serial, vTaskDelay (50 / tick)] else [])

/-- Function `task_1`, observed for `n` iterations of its `while (1)` loop. -/
def task_1 (tick : Nat) (debug : Bool) : Nat → List Event
  | 0 => []
  | n + 1 => task_1_body tick debug ++ task_1 tick debug n

/-- What one `sensors[i].read()` gives: the distance, and the timeout flag
that `timeoutOccurred()` reports for that read.  No read lies between the two
`timeoutOccurred()` calls of a pass of `task_2`, and the second is reached
only when the first returned false, so it reports false as well. -/
structure ReadResult where
  sensor_val : Nat
  timeout : Bool
  deriving DecidableEq, Repr

/-- Body of the `for` loop of `task_2` for sensor `i`. -/
def task_2_body (tick : Nat) (debug : Bool) (threshold : Nat) (i : Nat)
    (r : ReadResult) : Run :=
  let t0 := [Event.read i r.sensor_val, timeoutOccurred i r.timeout]
  if r.timeout then
    ⟨t0 ++ [restart], Outcome.restarted⟩
  else
    let t1 := if debug then [serial, vTaskDelay (50 / tick)] else []
    let t2 :=
      if r.sensor_val < threshold then
        if r.sensor_val < threshold then
          [vTaskSuspend Handle.handle_1] ++ pulse_awaken tick
            ++ [vTaskDelay (20 / tick), vTaskResume Handle.handle_1]
            ++ (if debug then [serial, vTaskDelay (500 / tick)] else [])
        else []
      else []
    let t3 :=
      if debug then
        [serial, timeoutOccurred i r.timeout] ++ (if r.timeout then [serial] else [])
          ++ [serial]
      else []
    ⟨t0 ++ t1 ++ t2 ++ t3, Outcome.completed⟩

/-- The `for (int i = 0; i < sensor_count; i++)` loop of `task_2`, started at
index `i`; `reads i` is what the read of sensor `i` gives in this pass. -/
def task_2_for (tick : Nat) (debug : Bool) (count threshold : Nat)
    (reads : Nat → ReadResult) (i : Nat) : Run :=
  if i < count then
    let r := task_2_body tick debug threshold i (reads i)
    match r.outcome with
    | Outcome.restarted => r
    | Outcome.completed =>
      let rest := task_2_for tick debug count threshold reads (i + 1)
      ⟨r.trace ++ rest.trace, rest.outcome⟩
  else ⟨[], Outcome.completed⟩
termination_by count - i

/-- Function `task_2`, observed for `rounds` iterations of its `while (1)`
loop, the first of them being iteration number `k`; `reads k i` is what the
read of sensor `i` gives in iteration `k`. -/
def task_2 (tick : Nat) (debug : Bool) (count threshold : Nat)
    (reads : Nat → Nat → ReadResult) : Nat → Nat → Run
  | 0, _ => ⟨[], Outcome.completed⟩
  | rounds + 1, k =>
    let r := task_2_for tick debug count threshold (reads k) 0
    match r.outcome with
    | Outcome.restarted => r
    | Outcome.completed =>
      let rest := task_2 tick debug count threshold reads rounds (k + 1)
      ⟨r.trace ++ rest.trace, rest.outcome⟩

/-! ## Observations on traces -/

/-- Levels `start, start+1, ..., start+n-1`. -/
def ascending (start : Int) (n : Nat) : List Int :=
  (List.range n).map (fun (k : Nat) => start + (k : Int))

/-- Levels `start, start-1, ..., start-(n-1)`. -/
def descending (start : Int) (n : Nat) : List Int :=
  (List.range n).map (fun (k : Nat) => start - (k : Int))

/-- Duty values of the `ledcWrite` calls of a trace, in order. -/
def writes : List Event → List Int
  | [] => []
  | ledcWrite _ d :: t => d :: writes t
  | _ :: t => writes t

/-- Sum of the arguments of the `vTaskDelay` calls of a trace, in ticks. -/
def totalDelay : List Event → Nat
  | [] => 0
  | vTaskDelay n :: t => n + totalDelay t
  | _ :: t => totalDelay t

/-- Number of `read` calls of a trace. -/
def readCount : List Event → Nat
  | [] => 0
  | Event.read _ _ :: t => readCount t + 1
  | _ :: t => readCount t

/-- Pins released by `pinMode(pin, INPUT)` in a trace, in order. -/
def releases : List Event → List Nat
  | [] => []
  | pinMode p PinMode.INPUT :: t => p :: releases t
  | _ :: t => releases t

/-- The `setAddress` and `startContinuous` calls of a trace, in order. -/
def addressing : List Event → List Event
  | [] => []
  | setAddress i a :: t => setAddress i a :: addressing t
  | startContinuous i p :: t => startContinuous i p :: addressing t
  | _ :: t => addressing t

/-- Addresses passed to `setAddress` in a trace, in order. -/
def addresses : List Event → List Nat
  | [] => []
  | setAddress _ a :: t => a :: addresses t
  | _ :: t => addresses t

/-- Electrical state of a reset (XSHUT) line. -/
inductive LineState where
  | unconfigured
  | driven (val : Option Level)
  | released
  deriving DecidableEq, Repr

/-- Effect of one call on the line wired to `pin`: `pinMode(pin, OUTPUT)`
makes the pin an output, `digitalWrite` sets the level of an output, and
`pinMode(pin, INPUT)` releases the line (the board pulls it HIGH). -/
def lineStep (pin : Nat) (s : LineState) : Event → LineState
  | pinMode p m =>
    if p = pin then
      match m with
      | PinMode.OUTPUT => LineState.driven none
      | PinMode.INPUT => LineState.released
    else s
  | digitalWrite p v =>
    if p = pin then
      match s with
      | LineState.driven _ => LineState.driven (some v)
      | _ => s
    else s
  | _ => s

/-- State of the line wired to `pin` after the calls of a trace. -/
def lineState (pin : Nat) (t : List Event) : LineState :=
  t.foldl (lineStep pin) LineState.unconfigured

/-- The line is actively held LOW. -/
def heldLow : LineState := LineState.driven (some Level.LOW)

/-- The statement `AtEach P pre t post`: in the trace `pre ++ t ++ post`,
every call `e` of the part `t` satisfies `P`, given the calls issued before
`e` and the calls issued after it. -/
def AtEach (P : List Event → Event → List Event → Prop) (pre t post : List Event) : Prop :=
  ∀ a e b, t = a ++ e :: b → P (pre ++ a) e (b ++ post)

/-- The calls by which the Monitor Task acts on the Idle Task or on the
actuator: `vTaskSuspend`, `vTaskResume` and `ledcWrite`. -/
def drive : List Event → List Event
  | [] => []
  | vTaskSuspend h :: t => vTaskSuspend h :: drive t
  | vTaskResume h :: t => vTaskResume h :: drive t
  | ledcWrite c d :: t => ledcWrite c d :: drive t
  | _ :: t => drive t

/-- The 452 levels of the awaken waveform. -/
def awakenLevels : List Int := ascending 30 226 ++ descending 255 226

/-- The 182 levels of one idle cycle. -/
def idleCycle : List Int := ascending 30 91 ++ descending 120 91

/-- Level at position `k` of the endlessly repeated idle cycle. -/
def idleLevel (k : Nat) : Int := idleCycle.getD (k % 182) 0

/-- Indices `i, i+1, ..., i+n-1`. -/
def span (i n : Nat) : List Nat := (List.range n).map (fun k => i + k)

/-- Calls of one pass of the first loop of `sensor_init`, for index `j`. -/
def resetOne (xshut_arr : Nat → Nat) (j : Nat) : List Event :=
  [pinMode (xshut_arr j) PinMode.OUTPUT, digitalWrite (xshut_arr j) Level.LOW]

/-- Calls of one pass of the second loop of `sensor_init` up to and including
`init()`, for index `j`. -/
def enableHead (xshut_arr : Nat → Nat) (j : Nat) (ok : Bool) : List Event :=
  [pinMode (xshut_arr j) PinMode.INPUT, delay 10, setTimeout j 500, setROICenter j 199,
    setROISize j 10 10, init j ok]

/-- Calls of one pass of the second loop of `sensor_init` in which `init()`
succeeds, for index `j`. -/
def enableOk (xshut_arr : Nat → Nat) (j : Nat) : List Event :=
  enableHead xshut_arr j true ++ [setAddress j (0x2A + j), startContinuous j 50]

/-- Calls of the pass of the second loop of `sensor_init` in which `init()`
fails, for index `j`. -/
def enableFail (xshut_arr : Nat → Nat) (j : Nat) : List Event :=
  enableHead xshut_arr j false ++ [serial, restart]

/-- What the bring-up needs whenever `init()` or `setAddress` is called on
sensor `i`, `pre` being the calls issued before: the lines of all later
indices are held LOW, every earlier sensor has been given an address other
than the default `0x29`, and the line of sensor `i` itself is released. -/
def Sequenced (N : Nat) (xshut_arr : Nat → Nat) (pre : List Event) (e : Event)
    (_post : List Event) : Prop :=
  ∀ i, ((∃ ok, e = init i ok) ∨ (∃ a, e = setAddress i a)) →
    (∀ j, i < j → j < N → lineState (xshut_arr j) pre = heldLow)
      ∧ (∀ j, j < i → ∃ a, setAddress j a ∈ pre ∧ a ≠ 0x29)
      ∧ lineState (xshut_arr i) pre = LineState.released

/-- What holds, in terms of calls alone, whenever `init()` or `setAddress` is
called on sensor `i`, `pre` being the calls issued before: the lines released
so far are exactly those of the indices `0, ..., i`, in this order, and every
earlier sensor has been given an address other than the default `0x29`. -/
def ReleasedUpTo (xshut_arr : Nat → Nat) (pre : List Event) (e : Event)
    (_post : List Event) : Prop :=
  ∀ i, ((∃ ok, e = init i ok) ∨ (∃ a, e = setAddress i a)) →
    releases pre = (List.range (i + 1)).map xshut_arr
      ∧ ∀ j, j < i → ∃ a, setAddress j a ∈ pre ∧ a ≠ 0x29

/-! ## Two tasks on one actuator -/

/-- The two tasks: `task_1` is the Idle Task, `task_2` the Monitor Task. -/
inductive TaskId where
  | idle
  | monitor
  deriving DecidableEq, Repr

/-- Whether the Idle Task is suspended after a call of the Monitor Task, given
whether it was before. -/
def suspendStep (s : Bool) : Event → Bool
  | vTaskSuspend Handle.handle_1 => true
  | vTaskResume Handle.handle_1 => false
  | _ => s

/-- Whether the Idle Task is suspended after the calls of a trace of the
Monitor Task. -/
def suspendedAfter (t : List Event) : Bool := t.foldl suspendStep false

/-- Calls of one awaken sequence of `task_2`: suspend, `pulse_awaken`, the
20 ms delay, resume. -/
def awakenBlock (tick : Nat) : List Event :=
  vTaskSuspend Handle.handle_1
    :: (pulse_awaken tick ++ [vTaskDelay (20 / tick), vTaskResume Handle.handle_1])

/-- Calls of `task_2` other than those of an awaken sequence, a reported
timeout and the restart. -/
def isQuiet : Event → Bool
  | Event.read _ _ => true
  | timeoutOccurred _ false => true
  | serial => true
  | vTaskDelay _ => true
  | _ => false

/-- Traces made of quiet calls and whole awaken sequences. -/
inductive Steady (tick : Nat) : List Event → Prop
  | nil : Steady tick []
  | quiet (e : Event) (t : List Event) : isQuiet e = true → Steady tick t → Steady tick (e :: t)
  | awaken (t : List Event) : Steady tick t → Steady tick (awakenBlock tick ++ t)

/-- Shape of a run of `task_2`: a steady trace, followed, when the run ends in
the restart, by the read that timed out, its `timeoutOccurred` and the
restart. -/
def MonitorShape (tick : Nat) (r : Run) : Prop :=
  ∃ s tail, r.trace = s ++ tail ∧ Steady tick s
    ∧ ((r.outcome = Outcome.completed ∧ tail = [])
      ∨ (r.outcome = Outcome.restarted
        ∧ ∃ i v, tail = [Event.read i v, timeoutOccurred i true, restart]))

/-- What holds at each call `e` of the Monitor Task, `pre` being its calls
before `e` and `suf` its calls after `e`. -/
def Protocol (tick : Nat) (pre : List Event) (e : Event) (suf : List Event) : Prop :=
  match e with
  | ledcWrite _ _ => suspendedAfter pre = true
  | vTaskSuspend h =>
    h = Handle.handle_1 ∧ suspendedAfter pre = false
      ∧ ∃ rest, suf = pulse_awaken tick
          ++ vTaskDelay (20 / tick) :: vTaskResume Handle.handle_1 :: rest
  | vTaskResume h => h = Handle.handle_1 ∧ suspendedAfter pre = true
  | timeoutOccurred i true => (∃ before v, pre = before ++ [Event.read i v]) ∧ suf = [restart]
  | restart => suf = []
  | _ => True

/-- Scheduling rule for an interleaved trace, `s` telling whether the Idle
Task is suspended: the Idle Task takes a step only while it is not suspended,
and nothing runs after `ESP.restart()`. -/
def schedOk : Bool → List (TaskId × Event) → Bool
  | _, [] => true
  | s, (TaskId.idle, _) :: g => !s && schedOk s g
  | s, (TaskId.monitor, e) :: g =>
    if e = restart then g.isEmpty else schedOk (suspendStep s e) g

/-- Calls of task `t` in an interleaved trace, in order. -/
def project (t : TaskId) : List (TaskId × Event) → List Event
  | [] => []
  | (t', e) :: g => if t' = t then e :: project t g else project t g

/-- An interleaved trace `g` of the two tasks: the calls of the Monitor Task
are an initial part of a run of `task_2`, the calls of the Idle Task are an
initial part of a run of `task_1` (a task that is suspended and resumed goes
on from where it stopped), and the scheduling rule holds. -/
structure Interleaving (tick : Nat) (debug : Bool) (count threshold : Nat)
    (reads : Nat → Nat → ReadResult) (g : List (TaskId × Event)) : Prop where
  monitor : ∃ rounds rest,
    project TaskId.monitor g ++ rest = (task_2 tick debug count threshold reads rounds 0).trace
  idle : ∃ n rest, project TaskId.idle g ++ rest = task_1 tick debug n
  sched : schedOk false g = true

/-- Level of the first `ledcWrite` of a trace, if there is one. -/
def firstWrite (t : List Event) : Option Int := (writes t).head?

/-! ## A sample run of the two tasks -/

/-- Reads of the sample run: every read gives 5, below the threshold of 10,
with no timeout. -/
def exReads : Nat → Nat → ReadResult := fun _ _ => ⟨5, false⟩

/-- Sample run, first part: the Idle Task writes level 30 and starts its
30 ms delay; the Monitor Task then reads 5, suspends the Idle Task and runs
the awaken waveform up to the delay before the resume. -/
def exBefore : List (TaskId × Event) :=
  [(TaskId.idle, ledcWrite PWM_channel 30), (TaskId.idle, vTaskDelay 30)]
    ++ ([Event.read 0 5, timeoutOccurred 0 false, serial, vTaskDelay 50,
          vTaskSuspend Handle.handle_1] ++ pulse_awaken 1 ++ [vTaskDelay 20]).map
        (fun e => (TaskId.monitor, e))

/-- Sample run, last part, after the resume: the Monitor Task ends its pass,
and the Idle Task takes its next step. -/
def exAfter : List (TaskId × Event) :=
  [(TaskId.monitor, serial), (TaskId.monitor, vTaskDelay 500), (TaskId.monitor, serial),
    (TaskId.monitor, timeoutOccurred 0 false), (TaskId.monitor, serial),
    (TaskId.idle, ledcWrite PWM_channel 31)]

/-- The sample run. -/
def exInterleaving : List (TaskId × Event) :=
  exBefore ++ (TaskId.monitor, vTaskResume Handle.handle_1) :: exAfter

/-- Reads of a run in which only the read of iteration 1 is below the
threshold of 10: the distances are 500, 5, 500, ..., with no timeout. -/
def loneLowReads : Nat → Nat → ReadResult :=
  fun k _ => if k = 1 then ⟨5, false⟩ else ⟨500, false⟩

/-- Reads of a run in which the first read times out while returning 5, a
distance below the threshold of 10. -/
def faultReads : Nat → Nat → ReadResult := fun _ _ => ⟨5, true⟩

/-! ## Loops -/

theorem ascending_succ (start : Int) (n : Nat) :
    ascending start (n + 1) = start :: ascending (start + 1) n := by
  unfold ascending
  rw [List.range_succ_eq_map, List.map_cons, List.map_map]
  refine congrArg₂ List.cons (by simp) (List.map_congr_left ?_)
  intro k _
  simp only [Function.comp, Nat.cast_succ]
  ring

theorem descending_succ (start : Int) (n : Nat) :
    descending start (n + 1) = start :: descending (start - 1) n := by
  unfold descending
  rw [List.range_succ_eq_map, List.map_cons, List.map_map]
  refine congrArg₂ List.cons (by simp) (List.map_congr_left ?_)
  intro k _
  simp only [Function.comp, Nat.cast_succ]
  ring

theorem forUp_eq_aux (hi : Int) (body : Int → List Event) (n : Nat) :
    ∀ d : Int, (hi + 1 - d).toNat = n →
      forUp hi body d = (ascending d n).flatMap body := by
  induction n with
  | zero =>
    intro d h
    rw [forUp, if_neg (by omega)]
    simp [ascending]
  | succ n ih =>
    intro d h
    rw [forUp, if_pos (by omega), ih (d + 1) (by omega), ascending_succ]
    simp

theorem forUp_eq (hi : Int) (body : Int → List Event) (d : Int) :
    forUp hi body d = (ascending d (hi + 1 - d).toNat).flatMap body :=
  forUp_eq_aux hi body _ d rfl

theorem forDown_eq_aux (lo : Int) (body : Int → List Event) (n : Nat) :
    ∀ d : Int, (d + 1 - lo).toNat = n →
      forDown lo body d = (descending d n).flatMap body := by
  induction n with
  | zero =>
    intro d h
    rw [forDown, if_neg (by omega)]
    simp [descending]
  | succ n ih =>
    intro d h
    rw [forDown, if_pos (by omega), ih (d - 1) (by omega), descending_succ]
    simp

theorem forDown_eq (lo : Int) (body : Int → List Event) (d : Int) :
    forDown lo body d = (descending d (d + 1 - lo).toNat).flatMap body :=
  forDown_eq_aux lo body _ d rfl

theorem pulse_idle_eq (tick : Nat) :
    pulse_idle tick =
      (ascending 30 91).flatMap (fun l => [ledcWrite PWM_channel l, vTaskDelay (30 / tick)])
        ++ [vTaskDelay (1000 / tick)]
        ++ (descending 120 91).flatMap (fun l => [ledcWrite PWM_channel l, vTaskDelay (30 / tick)])
        ++ [vTaskDelay (1000 / tick)] := by
  unfold pulse_idle
  rw [forUp_eq, forDown_eq]
  rfl

theorem pulse_awaken_eq (tick : Nat) :
    pulse_awaken tick =
      (ascending 30 226).flatMap (fun l => [ledcWrite PWM_channel l, vTaskDelay (20 / tick)])
        ++ [vTaskDelay (1500 / tick)]
        ++ (descending 255 226).flatMap (fun l => [ledcWrite PWM_channel l, vTaskDelay (20 / tick)]) := by
  unfold pulse_awaken
  rw [forUp_eq, forDown_eq]
  rfl

/-! ## Observations on ramps -/

theorem writes_append (a b : List Event) : writes (a ++ b) = writes a ++ writes b := by
  induction a with
  | nil => rfl
  | cons e a ih => cases e <;> simp [writes, ih]

theorem totalDelay_append (a b : List Event) :
    totalDelay (a ++ b) = totalDelay a + totalDelay b := by
  induction a with
  | nil => simp [totalDelay]
  | cons e a ih => cases e <;> simp [totalDelay, ih, Nat.add_assoc]

theorem writes_ramp (c n : Nat) (L : List Int) :
    writes (L.flatMap (fun l => [ledcWrite c l, vTaskDelay n])) = L := by
  induction L with
  | nil => rfl
  | cons l L ih =>
    rw [List.flatMap_cons]
    show l :: writes (L.flatMap (fun l => [ledcWrite c l, vTaskDelay n])) = l :: L
    rw [ih]

theorem totalDelay_ramp (c n : Nat) (L : List Int) :
    totalDelay (L.flatMap (fun l => [ledcWrite c l, vTaskDelay n])) = L.length * n := by
  induction L with
  | nil => simp [totalDelay]
  | cons l L ih =>
    rw [List.flatMap_cons]
    show n + totalDelay (L.flatMap (fun l => [ledcWrite c l, vTaskDelay n])) = _
    rw [ih, List.length_cons]
    ring

theorem mem_ramp (c n : Nat) (L : List Int) (c' : Nat) (d : Int)
    (h : ledcWrite c' d ∈ L.flatMap (fun l => [ledcWrite c l, vTaskDelay n])) : c' = c := by
  simp only [List.mem_flatMap, List.mem_cons, List.mem_singleton, List.not_mem_nil,
    or_false] at h
  obtain ⟨l, _, h⟩ := h
  rcases h with h | h
  · injection h
  · cases h

theorem ascending_length (start : Int) (n : Nat) : (ascending start n).length = n := by
  simp [ascending]

theorem descending_length (start : Int) (n : Nat) : (descending start n).length = n := by
  simp [descending]

theorem mem_ascending (start : Int) (n : Nat) (d : Int) :
    d ∈ ascending start n ↔ start ≤ d ∧ d < start + n := by
  simp only [ascending, List.mem_map, List.mem_range]
  constructor
  · rintro ⟨k, hk, rfl⟩
    omega
  · intro h
    exact ⟨(d - start).toNat, by omega, by omega⟩

theorem mem_descending (start : Int) (n : Nat) (d : Int) :
    d ∈ descending start n ↔ start - n < d ∧ d ≤ start := by
  simp only [descending, List.mem_map, List.mem_range]
  constructor
  · rintro ⟨k, hk, rfl⟩
    omega
  · intro h
    exact ⟨(start - d).toNat, by omega, by omega⟩

theorem descending_snoc (start : Int) (n : Nat) :
    descending start (n + 1) = descending start n ++ [start - n] := by
  simp [descending, List.range_succ]

theorem writes_pulse_idle (tick : Nat) :
    writes (pulse_idle tick) = ascending 30 91 ++ descending 120 91 := by
  rw [pulse_idle_eq, writes_append, writes_append, writes_append, writes_ramp, writes_ramp]
  show ascending 30 91 ++ [] ++ descending 120 91 ++ [] = _
  rw [List.append_nil, List.append_nil]

theorem writes_pulse_awaken (tick : Nat) :
    writes (pulse_awaken tick) = ascending 30 226 ++ descending 255 226 := by
  rw [pulse_awaken_eq, writes_append, writes_append, writes_ramp, writes_ramp]
  show ascending 30 226 ++ [] ++ descending 255 226 = _
  rw [List.append_nil]

theorem totalDelay_pulse_idle (tick : Nat) :
    totalDelay (pulse_idle tick) = 182 * (30 / tick) + 2 * (1000 / tick) := by
  rw [pulse_idle_eq, totalDelay_append, totalDelay_append, totalDelay_append,
    totalDelay_ramp, totalDelay_ramp, ascending_length, descending_length]
  show 91 * (30 / tick) + (1000 / tick + 0) + 91 * (30 / tick) + (1000 / tick + 0) = _
  ring

/-! ## Waveforms -/

/-- C2: one call of `pulse_idle` issues exactly the 91 ascending levels
30..120, each followed by the 30 ms delay, then the 1000 ms delay, then the 91
descending levels 120..30, each followed by the 30 ms delay, then the 1000 ms
delay; these are 182 writes, all on `PWM_channel`, and no other level is
written.  Delays are in ticks, `d / portTICK_PERIOD_MS`; the second part
reads them at a tick of 1 ms. -/
theorem pulse_idle_trace (tick : Nat) :
    pulse_idle tick =
        (ascending 30 91).flatMap
            (fun l => [ledcWrite PWM_channel l, vTaskDelay (30 / tick)])
          ++ [vTaskDelay (1000 / tick)]
          ++ (descending 120 91).flatMap
            (fun l => [ledcWrite PWM_channel l, vTaskDelay (30 / tick)])
          ++ [vTaskDelay (1000 / tick)]
      ∧ pulse_idle 1 =
        (ascending 30 91).flatMap (fun l => [ledcWrite PWM_channel l, vTaskDelay 30])
          ++ [vTaskDelay 1000]
          ++ (descending 120 91).flatMap (fun l => [ledcWrite PWM_channel l, vTaskDelay 30])
          ++ [vTaskDelay 1000]
      ∧ writes (pulse_idle tick) = ascending 30 91 ++ descending 120 91
      ∧ (writes (pulse_idle tick)).length = 182
      ∧ (∀ d, d ∈ ascending 30 91 ↔ 30 ≤ d ∧ d ≤ 120)
      ∧ (∀ d, d ∈ descending 120 91 ↔ 30 ≤ d ∧ d ≤ 120)
      ∧ (∀ c d, ledcWrite c d ∈ pulse_idle tick → c = PWM_channel) := by
  refine ⟨pulse_idle_eq tick, pulse_idle_eq 1, writes_pulse_idle tick, ?_, ?_, ?_, ?_⟩
  · rw [writes_pulse_idle, List.length_append, ascending_length, descending_length]
  · intro d
    rw [mem_ascending]
    omega
  · intro d
    rw [mem_descending]
    omega
  · intro c d h
    rw [pulse_idle_eq] at h
    simp only [List.mem_append, List.mem_singleton] at h
    rcases h with ((h | h) | h) | h
    · exact mem_ramp _ _ _ _ _ h
    · cases h
    · exact mem_ramp _ _ _ _ _ h
    · cases h

/-- C3: one call of `pulse_awaken` issues exactly the 226 ascending levels
30..255, each followed by the 20 ms delay, then the single 1500 ms hold, then
the 226 descending levels 255..30, each followed by the 20 ms delay; these are
452 writes, the waveform ends with the 20 ms delay after the write of level
30, and every level lies in the range of the 8-bit PWM, 0..255. -/
theorem pulse_awaken_trace (tick : Nat) :
    pulse_awaken tick =
        (ascending 30 226).flatMap
            (fun l => [ledcWrite PWM_channel l, vTaskDelay (20 / tick)])
          ++ [vTaskDelay (1500 / tick)]
          ++ (descending 255 226).flatMap
            (fun l => [ledcWrite PWM_channel l, vTaskDelay (20 / tick)])
      ∧ pulse_awaken 1 =
        (ascending 30 226).flatMap (fun l => [ledcWrite PWM_channel l, vTaskDelay 20])
          ++ [vTaskDelay 1500]
          ++ (descending 255 226).flatMap (fun l => [ledcWrite PWM_channel l, vTaskDelay 20])
      ∧ writes (pulse_awaken tick) = ascending 30 226 ++ descending 255 226
      ∧ (writes (pulse_awaken tick)).length = 452
      ∧ (∀ d, d ∈ ascending 30 226 ↔ 30 ≤ d ∧ d ≤ 255)
      ∧ (∀ d, d ∈ descending 255 226 ↔ 30 ≤ d ∧ d ≤ 255)
      ∧ (∃ before, pulse_awaken tick =
          before ++ [ledcWrite PWM_channel 30, vTaskDelay (20 / tick)])
      ∧ (∀ d, d ∈ writes (pulse_awaken tick) → 0 ≤ d ∧ d ≤ 2 ^ PWM_res - 1) := by
  refine ⟨pulse_awaken_eq tick, pulse_awaken_eq 1, writes_pulse_awaken tick, ?_, ?_, ?_, ?_, ?_⟩
  · rw [writes_pulse_awaken, List.length_append, ascending_length, descending_length]
  · intro d
    rw [mem_ascending]
    omega
  · intro d
    rw [mem_descending]
    omega
  · refine ⟨(ascending 30 226).flatMap
        (fun l => [ledcWrite PWM_channel l, vTaskDelay (20 / tick)])
      ++ [vTaskDelay (1500 / tick)]
      ++ (descending 255 225).flatMap
        (fun l => [ledcWrite PWM_channel l, vTaskDelay (20 / tick)]), ?_⟩
    rw [pulse_awaken_eq, descending_snoc 255 225]
    simp [List.flatMap_append]
  · intro d h
    rw [writes_pulse_awaken, List.mem_append, mem_ascending, mem_descending] at h
    have : (2 : Int) ^ PWM_res - 1 = 255 := by decide
    omega

/-- C10, as the code has it: at a tick of 1 ms the delays of one call of
`pulse_idle` add up to (91 steps x 30 ms x 2) + 2000 ms = 7460 ms. -/
theorem pulse_idle_duration :
    totalDelay (pulse_idle 1) = (91 * 30 * 2) + 2000 ∧ totalDelay (pulse_idle 1) = 7460 := by
  rw [totalDelay_pulse_idle]
  decide

/-- C10 fails as stated: at a tick of 1 ms the delays of one call of
`pulse_idle` do not add up to (90 x 30 x 2) + 2000 = 7400 ms. -/
theorem idle_cycle_is_not_7400_ms :
    totalDelay (pulse_idle 1) ≠ (90 * 30 * 2) + 2000 := by
  rw [totalDelay_pulse_idle]
  decide

/-! ## Bring-up: the shape of the trace -/

theorem span_zero (i : Nat) : span i 0 = [] := rfl

theorem span_succ (i n : Nat) : span i (n + 1) = i :: span (i + 1) n := by
  unfold span
  rw [List.range_succ_eq_map, List.map_cons, List.map_map]
  refine congrArg₂ List.cons (by simp) (List.map_congr_left ?_)
  intro k _
  simp only [Function.comp, Nat.succ_eq_add_one]
  omega

theorem span_snoc (i n : Nat) : span i (n + 1) = span i n ++ [i + n] := by
  simp [span, List.range_succ]

theorem span_eq_range (n : Nat) : span 0 n = List.range n := by
  simp [span]

theorem mem_span (i n j : Nat) : j ∈ span i n ↔ i ≤ j ∧ j < i + n := by
  simp only [span, List.mem_map, List.mem_range]
  constructor
  · rintro ⟨k, hk, rfl⟩
    omega
  · intro h
    exact ⟨j - i, by omega, by omega⟩

theorem sensor_init_reset_eq_aux (count : Nat) (pins : Nat → Nat) (n : Nat) :
    ∀ i, count - i = n →
      sensor_init_reset count pins i = (span i n).flatMap (resetOne pins) := by
  induction n with
  | zero =>
    intro i h
    rw [sensor_init_reset, if_neg (by omega)]
    rfl
  | succ n ih =>
    intro i h
    rw [sensor_init_reset, if_pos (by omega), ih (i + 1) (by omega), span_succ,
      List.flatMap_cons]
    rfl

theorem sensor_init_reset_eq (count : Nat) (pins : Nat → Nat) :
    sensor_init_reset count pins 0 = (List.range count).flatMap (resetOne pins) := by
  rw [sensor_init_reset_eq_aux count pins count 0 rfl, span_eq_range]

theorem sensor_init_enable_ok_aux (count : Nat) (pins : Nat → Nat) (initOk : Nat → Bool)
    (n : Nat) :
    ∀ i, count - i = n → (∀ j, i ≤ j → j < count → initOk j = true) →
      sensor_init_enable count pins initOk i
        = ⟨(span i n).flatMap (enableOk pins), Outcome.completed⟩ := by
  induction n with
  | zero =>
    intro i h _
    rw [sensor_init_enable, if_neg (by omega)]
    rfl
  | succ n ih =>
    intro i h hok
    rw [sensor_init_enable, if_pos (by omega)]
    have hi : initOk i = true := hok i (Nat.le_refl i) (by omega)
    rw [ih (i + 1) (by omega) (fun j hj hjc => hok j (by omega) hjc), span_succ,
      List.flatMap_cons]
    simp [hi, enableOk, enableHead]

theorem sensor_init_enable_fail_aux (count : Nat) (pins : Nat → Nat) (initOk : Nat → Bool)
    (f : Nat) (hf : f < count) (hfail : initOk f = false) (n : Nat) :
    ∀ i, f - i = n → i ≤ f → (∀ j, i ≤ j → j < f → initOk j = true) →
      sensor_init_enable count pins initOk i
        = ⟨(span i n).flatMap (enableOk pins) ++ enableFail pins f, Outcome.restarted⟩ := by
  induction n with
  | zero =>
    intro i h hle _
    have hif : i = f := by omega
    subst hif
    rw [sensor_init_enable, if_pos hf]
    simp [hfail, enableFail, enableHead, span_zero]
  | succ n ih =>
    intro i h hle hok
    rw [sensor_init_enable, if_pos (by omega)]
    have hi : initOk i = true := hok i (Nat.le_refl i) (by omega)
    rw [ih (i + 1) (by omega) (by omega) (fun j hj hjc => hok j (by omega) hjc), span_succ,
      List.flatMap_cons]
    simp [hi, enableOk, enableHead]

theorem sensor_init_ok (N : Nat) (pins : Nat → Nat) (initOk : Nat → Bool)
    (h : ∀ i, i < N → initOk i = true) :
    sensor_init N pins initOk
      = ⟨(List.range N).flatMap (resetOne pins) ++ [delay 10]
          ++ (List.range N).flatMap (enableOk pins), Outcome.completed⟩ := by
  unfold sensor_init
  rw [sensor_init_reset_eq,
    sensor_init_enable_ok_aux N pins initOk N 0 rfl (fun j _ hj => h j hj), span_eq_range]

theorem sensor_init_fail (N : Nat) (pins : Nat → Nat) (initOk : Nat → Bool) (i : Nat)
    (hi : i < N) (hfail : initOk i = false) (hfirst : ∀ j, j < i → initOk j = true) :
    sensor_init N pins initOk
      = ⟨(List.range N).flatMap (resetOne pins) ++ [delay 10]
          ++ ((List.range i).flatMap (enableOk pins) ++ enableFail pins i),
          Outcome.restarted⟩ := by
  unfold sensor_init
  rw [sensor_init_reset_eq,
    sensor_init_enable_fail_aux N pins initOk i hi hfail i 0 rfl (Nat.zero_le i)
      (fun j _ hj => hfirst j hj), span_eq_range]

/-! ## Bring-up: observations -/

theorem addressing_append (a b : List Event) :
    addressing (a ++ b) = addressing a ++ addressing b := by
  induction a with
  | nil => rfl
  | cons e a ih => cases e <;> simp [addressing, ih]

theorem addresses_append (a b : List Event) :
    addresses (a ++ b) = addresses a ++ addresses b := by
  induction a with
  | nil => rfl
  | cons e a ih => cases e <;> simp [addresses, ih]

theorem releases_append (a b : List Event) :
    releases (a ++ b) = releases a ++ releases b := by
  induction a with
  | nil => rfl
  | cons e a ih =>
    cases e with
    | pinMode p m => cases m <;> simp [releases, ih]
    | _ => simp [releases, ih]

theorem mem_addressing_setAddress (t : List Event) (j a : Nat) :
    setAddress j a ∈ t ↔ setAddress j a ∈ addressing t := by
  induction t with
  | nil => simp [addressing]
  | cons e t ih => cases e <;> simp [addressing, ih]

theorem mem_addressing_startContinuous (t : List Event) (j p : Nat) :
    startContinuous j p ∈ t ↔ startContinuous j p ∈ addressing t := by
  induction t with
  | nil => simp [addressing]
  | cons e t ih => cases e <;> simp [addressing, ih]

theorem addressing_reset (pins : Nat → Nat) (L : List Nat) :
    addressing (L.flatMap (resetOne pins)) = [] := by
  induction L with
  | nil => rfl
  | cons j L ih => rw [List.flatMap_cons, addressing_append, ih]; rfl

theorem addresses_reset (pins : Nat → Nat) (L : List Nat) :
    addresses (L.flatMap (resetOne pins)) = [] := by
  induction L with
  | nil => rfl
  | cons j L ih => rw [List.flatMap_cons, addresses_append, ih]; rfl

theorem releases_reset (pins : Nat → Nat) (L : List Nat) :
    releases (L.flatMap (resetOne pins)) = [] := by
  induction L with
  | nil => rfl
  | cons j L ih => rw [List.flatMap_cons, releases_append, ih]; rfl

theorem count_restart_reset (pins : Nat → Nat) (L : List Nat) :
    (L.flatMap (resetOne pins)).count restart = 0 := by
  induction L with
  | nil => rfl
  | cons j L ih => rw [List.flatMap_cons, List.count_append, ih]; simp [resetOne]

theorem addressing_enableOk (pins : Nat → Nat) (L : List Nat) :
    addressing (L.flatMap (enableOk pins))
      = L.flatMap (fun i => [setAddress i (0x2A + i), startContinuous i 50]) := by
  induction L with
  | nil => rfl
  | cons j L ih => rw [List.flatMap_cons, List.flatMap_cons, addressing_append, ih]; rfl

theorem addresses_enableOk (pins : Nat → Nat) (L : List Nat) :
    addresses (L.flatMap (enableOk pins)) = L.map (fun i => 0x2A + i) := by
  induction L with
  | nil => rfl
  | cons j L ih => rw [List.flatMap_cons, List.map_cons, addresses_append, ih]; rfl

theorem releases_enableOk (pins : Nat → Nat) (L : List Nat) :
    releases (L.flatMap (enableOk pins)) = L.map pins := by
  induction L with
  | nil => rfl
  | cons j L ih => rw [List.flatMap_cons, List.map_cons, releases_append, ih]; rfl

theorem count_restart_enableOk (pins : Nat → Nat) (L : List Nat) :
    (L.flatMap (enableOk pins)).count restart = 0 := by
  induction L with
  | nil => rfl
  | cons j L ih =>
    rw [List.flatMap_cons, List.count_append, ih]
    simp [enableOk, enableHead]

theorem mem_addressing_pairs (L : List Nat) (e : Event)
    (h : e ∈ L.flatMap (fun i => [setAddress i (0x2A + i), startContinuous i 50])) :
    ∃ i, i ∈ L ∧ (e = setAddress i (0x2A + i) ∨ e = startContinuous i 50) := by
  simp only [List.mem_flatMap, List.mem_cons, List.mem_singleton, List.not_mem_nil,
    or_false] at h
  exact h

/-- C4: if every `init()` succeeds, `sensor_init` runs to its end; its
`setAddress` and `startContinuous` calls are, in order, `setAddress(0x2A + i)`
then `startContinuous(50)` on sensor `i` for `i = 0, ..., N-1`, so each sensor
is started exactly once and after its own address assignment; the addresses
are pairwise distinct and are exactly the values from `0x2A` to
`0x2A + N - 1`. -/
theorem sensor_init_addresses (N : Nat) (pins : Nat → Nat) (initOk : Nat → Bool)
    (h : ∀ i, i < N → initOk i = true) :
    (sensor_init N pins initOk).outcome = Outcome.completed
      ∧ addressing (sensor_init N pins initOk).trace
          = (List.range N).flatMap (fun i => [setAddress i (0x2A + i), startContinuous i 50])
      ∧ addresses (sensor_init N pins initOk).trace = (List.range N).map (fun i => 0x2A + i)
      ∧ (addresses (sensor_init N pins initOk).trace).Nodup
      ∧ (∀ a, a ∈ addresses (sensor_init N pins initOk).trace
          ↔ 0x2A ≤ a ∧ a ≤ 0x2A + N - 1) := by
  rw [sensor_init_ok N pins initOk h]
  have haddr : addresses ((List.range N).flatMap (resetOne pins) ++ [delay 10]
      ++ (List.range N).flatMap (enableOk pins)) = (List.range N).map (fun i => 0x2A + i) := by
    rw [addresses_append, addresses_append, addresses_reset, addresses_enableOk]
    rfl
  refine ⟨rfl, ?_, haddr, ?_, ?_⟩
  · show addressing ((List.range N).flatMap (resetOne pins) ++ [delay 10]
      ++ (List.range N).flatMap (enableOk pins)) = _
    rw [addressing_append, addressing_append, addressing_reset, addressing_enableOk]
    rfl
  · show (addresses ((List.range N).flatMap (resetOne pins) ++ [delay 10]
      ++ (List.range N).flatMap (enableOk pins))).Nodup
    rw [haddr]
    exact (List.nodup_range N).map (fun a b hab => by omega)
  · intro a
    show a ∈ addresses ((List.range N).flatMap (resetOne pins) ++ [delay 10]
      ++ (List.range N).flatMap (enableOk pins)) ↔ _
    rw [haddr]
    simp only [List.mem_map, List.mem_range]
    constructor
    · rintro ⟨k, hk, rfl⟩
      omega
    · intro ha
      exact ⟨a - 0x2A, by omega, by omega⟩

/-- C4 at the six pins of the firmware, every `init()` succeeding. -/
theorem sensor_init_addresses_witness :
    (∀ i, i < 6 → (fun _ => true) i = true)
      ∧ addresses (sensor_init 6 xshutPins (fun _ => true)).trace
          = (List.range 6).map (fun i => 0x2A + i) :=
  ⟨fun _ _ => rfl, (sensor_init_addresses 6 xshutPins (fun _ => true) (fun _ _ => rfl)).2.2.1⟩

/-- C7: if `sensors[i].init()` is the first `init()` to fail, `sensor_init`
does not run to its end: it calls `ESP.restart()`, once, as its last call; no
`setAddress` and no `startContinuous` is issued for sensor `i` or a later one;
and the lines released are exactly those of the indices `0, ..., i`, so that,
the pins being distinct, no line of a later index is released. -/
theorem sensor_init_failure (N : Nat) (pins : Nat → Nat) (initOk : Nat → Bool) (i : Nat)
    (hi : i < N) (hfail : initOk i = false) (hfirst : ∀ j, j < i → initOk j = true) :
    (sensor_init N pins initOk).outcome = Outcome.restarted
      ∧ (sensor_init N pins initOk).trace.count restart = 1
      ∧ (∃ before, (sensor_init N pins initOk).trace = before ++ [restart])
      ∧ (∀ j a, i ≤ j → setAddress j a ∉ (sensor_init N pins initOk).trace)
      ∧ (∀ j p, i ≤ j → startContinuous j p ∉ (sensor_init N pins initOk).trace)
      ∧ releases (sensor_init N pins initOk).trace = (List.range (i + 1)).map pins
      ∧ ((∀ j k, j < N → k < N → pins j = pins k → j = k) →
          ∀ j, i < j → j < N → pins j ∉ releases (sensor_init N pins initOk).trace) := by
  rw [sensor_init_fail N pins initOk i hi hfail hfirst]
  have haddr : addressing ((List.range N).flatMap (resetOne pins) ++ [delay 10]
      ++ ((List.range i).flatMap (enableOk pins) ++ enableFail pins i))
      = (List.range i).flatMap (fun i => [setAddress i (0x2A + i), startContinuous i 50]) := by
    rw [addressing_append, addressing_append, addressing_append, addressing_reset,
      addressing_enableOk]
    simp [addressing, enableFail, enableHead]
  have hrel : releases ((List.range N).flatMap (resetOne pins) ++ [delay 10]
      ++ ((List.range i).flatMap (enableOk pins) ++ enableFail pins i))
      = (List.range (i + 1)).map pins := by
    rw [releases_append, releases_append, releases_append, releases_reset,
      releases_enableOk, List.range_succ, List.map_append]
    simp [releases, enableFail, enableHead]
  refine ⟨rfl, ?_, ?_, ?_, ?_, hrel, ?_⟩
  · show ((List.range N).flatMap (resetOne pins) ++ [delay 10]
      ++ ((List.range i).flatMap (enableOk pins) ++ enableFail pins i)).count restart = 1
    rw [List.count_append, List.count_append, List.count_append, count_restart_reset,
      count_restart_enableOk]
    simp [enableFail, enableHead]
  · refine ⟨(List.range N).flatMap (resetOne pins) ++ [delay 10]
      ++ ((List.range i).flatMap (enableOk pins) ++ (enableHead pins i false ++ [serial])), ?_⟩
    simp [enableFail]
  · intro j a hj hmem
    rw [mem_addressing_setAddress] at hmem
    change setAddress j a ∈ addressing ((List.range N).flatMap (resetOne pins) ++ [delay 10]
      ++ ((List.range i).flatMap (enableOk pins) ++ enableFail pins i)) at hmem
    rw [haddr] at hmem
    obtain ⟨k, hk, hcase⟩ := mem_addressing_pairs _ _ hmem
    rw [List.mem_range] at hk
    rcases hcase with hcase | hcase
    · injection hcase with h1 _
      omega
    · cases hcase
  · intro j q hj hmem
    rw [mem_addressing_startContinuous] at hmem
    change startContinuous j q ∈ addressing ((List.range N).flatMap (resetOne pins)
      ++ [delay 10] ++ ((List.range i).flatMap (enableOk pins) ++ enableFail pins i)) at hmem
    rw [haddr] at hmem
    obtain ⟨k, hk, hcase⟩ := mem_addressing_pairs _ _ hmem
    rw [List.mem_range] at hk
    rcases hcase with hcase | hcase
    · cases hcase
    · injection hcase with h1 _
      omega
  · intro hinj j hij hjN hmem
    change pins j ∈ releases ((List.range N).flatMap (resetOne pins) ++ [delay 10]
      ++ ((List.range i).flatMap (enableOk pins) ++ enableFail pins i)) at hmem
    rw [hrel, List.mem_map] at hmem
    obtain ⟨k, hk, hpk⟩ := hmem
    rw [List.mem_range] at hk
    have := hinj k j (by omega) hjN hpk
    omega

/-! ## Properties of every call of a trace -/

theorem atEach_nil (P : List Event → Event → List Event → Prop) (pre post : List Event) :
    AtEach P pre [] post := by
  intro a e b h
  cases a <;> cases h

theorem atEach_cons (P : List Event → Event → List Event → Prop) (pre : List Event)
    (e : Event) (t post : List Event) :
    AtEach P pre (e :: t) post ↔ P pre e (t ++ post) ∧ AtEach P (pre ++ [e]) t post := by
  constructor
  · intro h
    refine ⟨?_, ?_⟩
    · have := h [] e t rfl
      simpa using this
    · intro a x b hs
      have := h (e :: a) x b (by rw [hs]; rfl)
      simpa using this
  · rintro ⟨h0, h1⟩ a x b hs
    cases a with
    | nil =>
      injection hs with hx ht
      subst hx
      subst ht
      simpa using h0
    | cons y a =>
      injection hs with hy ht
      subst hy
      have := h1 a x b ht
      simpa using this

theorem atEach_append (P : List Event → Event → List Event → Prop) (t1 : List Event) :
    ∀ (pre t2 post : List Event),
      AtEach P pre (t1 ++ t2) post
        ↔ AtEach P pre t1 (t2 ++ post) ∧ AtEach P (pre ++ t1) t2 post := by
  induction t1 with
  | nil =>
    intro pre t2 post
    simp [atEach_nil]
  | cons e t1 ih =>
    intro pre t2 post
    rw [List.cons_append, atEach_cons, atEach_cons, ih]
    simp [and_assoc]

theorem atEach_of_forall (P : List Event → Event → List Event → Prop) (t : List Event)
    (h : ∀ e, e ∈ t → ∀ pre post, P pre e post) : ∀ pre post, AtEach P pre t post := by
  intro pre post a e b hs
  exact h e (by rw [hs]; simp) _ _

/-! ## Bring-up: reset lines -/

theorem lineState_append (p : Nat) (a b : List Event) :
    lineState p (a ++ b) = b.foldl (lineStep p) (lineState p a) := by
  simp [lineState, List.foldl_append]

theorem foldl_lineStep_reset (pins : Nat → Nat) (p : Nat) (L : List Nat) :
    ∀ s, (s = heldLow ∨ ∃ j, j ∈ L ∧ pins j = p) →
      (L.flatMap (resetOne pins)).foldl (lineStep p) s = heldLow := by
  induction L with
  | nil =>
    intro s h
    rcases h with h | ⟨j, hj, _⟩
    · simpa using h
    · cases hj
  | cons k L ih =>
    intro s h
    rw [List.flatMap_cons, List.foldl_append]
    apply ih
    by_cases hk : pins k = p
    · left
      simp [resetOne, lineStep, hk, heldLow]
    · rcases h with h | ⟨j, hj, hjp⟩
      · left
        simp [resetOne, lineStep, hk, h]
      · right
        rcases List.mem_cons.mp hj with rfl | hj
        · exact absurd hjp hk
        · exact ⟨j, hj, hjp⟩

theorem lineState_reset (pins : Nat → Nat) (N j : Nat) (hj : j < N) :
    lineState (pins j) ((List.range N).flatMap (resetOne pins)) = heldLow :=
  foldl_lineStep_reset pins (pins j) (List.range N) _
    (Or.inr ⟨j, List.mem_range.mpr hj, rfl⟩)

theorem not_sequenced_event_reset (N : Nat) (pins : Nat → Nat) (L : List Nat) (e : Event)
    (he : e ∈ L.flatMap (resetOne pins)) (pre post : List Event) :
    Sequenced N pins pre e post := by
  simp only [List.mem_flatMap, resetOne, List.mem_cons, List.mem_singleton,
    List.not_mem_nil, or_false] at he
  obtain ⟨j, _, he⟩ := he
  intro i hi
  rcases he with rfl | rfl <;> rcases hi with ⟨_, h⟩ | ⟨_, h⟩ <;> cases h

theorem sequenced_other (N : Nat) (pins : Nat → Nat) (pre : List Event) (e : Event)
    (post : List Event) (h1 : ∀ i ok, e ≠ init i ok) (h2 : ∀ i a, e ≠ setAddress i a) :
    Sequenced N pins pre e post := by
  intro i hi
  rcases hi with ⟨ok, h⟩ | ⟨a, h⟩
  · exact absurd h (h1 i ok)
  · exact absurd h (h2 i a)

theorem sequenced_enable (N : Nat) (pins : Nat → Nat) (initOk : Nat → Bool)
    (hinj : ∀ j k, j < N → k < N → pins j = pins k → j = k) (n : Nat) :
    ∀ i pre, N - i = n →
      (∀ j, i ≤ j → j < N → lineState (pins j) pre = heldLow) →
      (∀ j, j < i → ∃ a, setAddress j a ∈ pre ∧ a ≠ 0x29) →
      AtEach (Sequenced N pins) pre (sensor_init_enable N pins initOk i).trace [] := by
  induction n with
  | zero =>
    intro i pre h _ _
    rw [sensor_init_enable, if_neg (by omega)]
    exact atEach_nil _ _ _
  | succ n ih =>
    intro i pre h hlow haddr
    have hiN : i < N := by omega
    have hne : ∀ j, i < j → j < N → pins i ≠ pins j := by
      intro j hij hjN hp
      have := hinj i j hiN hjN hp
      omega
    have hseq : ∀ mid : List Event, (∀ e, e ∈ mid → lineStep (pins i) LineState.released e
          = LineState.released) →
        (∀ j, i < j → j < N → ∀ e, e ∈ mid → lineStep (pins j) heldLow e = heldLow) →
        ∀ i2, i2 = i →
          (∀ j, i2 < j → j < N →
              lineState (pins j) (pre ++ pinMode (pins i) PinMode.INPUT :: mid) = heldLow)
            ∧ (∀ j, j < i2 → ∃ a,
                setAddress j a ∈ pre ++ pinMode (pins i) PinMode.INPUT :: mid ∧ a ≠ 0x29)
            ∧ lineState (pins i2) (pre ++ pinMode (pins i) PinMode.INPUT :: mid)
                = LineState.released := by
      intro mid hrel hkeep i2 hi2
      subst hi2
      refine ⟨?_, ?_, ?_⟩
      · intro j hij hjN
        rw [lineState_append, List.foldl_cons]
        have h0 : lineStep (pins j) (lineState (pins j) pre) (pinMode (pins i2) PinMode.INPUT)
            = heldLow := by
          simp [lineStep, hne j hij hjN, hlow j (by omega) hjN]
        rw [h0]
        clear h0
        induction mid with
        | nil => rfl
        | cons e mid ihm =>
          rw [List.foldl_cons, hkeep j hij hjN e (List.mem_cons_self _ _)]
          exact ihm (fun e he => hrel e (List.mem_cons_of_mem _ he))
            (fun j hij hjN e he => hkeep j hij hjN e (List.mem_cons_of_mem _ he))
      · intro j hj
        obtain ⟨a, ha, hne29⟩ := haddr j hj
        exact ⟨a, List.mem_append_left _ ha, hne29⟩
      · rw [lineState_append, List.foldl_cons]
        have h0 : lineStep (pins i2) (lineState (pins i2) pre)
            (pinMode (pins i2) PinMode.INPUT) = LineState.released := by
          simp [lineStep]
        rw [h0]
        clear h0
        induction mid with
        | nil => rfl
        | cons e mid ihm =>
          rw [List.foldl_cons, hrel e (List.mem_cons_self _ _)]
          exact ihm (fun e he => hrel e (List.mem_cons_of_mem _ he))
            (fun j hij hjN e he => hkeep j hij hjN e (List.mem_cons_of_mem _ he))
    have hidx : ∀ (e : Event) (i2 : Nat), e = init i (initOk i) ∨ e = setAddress i (0x2A + i) →
        ((∃ ok, e = init i2 ok) ∨ (∃ a, e = setAddress i2 a)) → i2 = i := by
      intro e i2 he hi2
      rcases he with rfl | rfl <;> rcases hi2 with ⟨_, h⟩ | ⟨_, h⟩
      · injection h with h1 _
        exact h1.symm
      · cases h
      · cases h
      · injection h with h1 _
        exact h1.symm
    rw [sensor_init_enable, if_pos hiN]
    have hinit : ∀ post, Sequenced N pins
        (pre ++ [pinMode (pins i) PinMode.INPUT, delay 10, setTimeout i 500,
          setROICenter i 199, setROISize i 10 10]) (init i (initOk i)) post := by
      intro post i2 hi2
      have := hidx _ i2 (Or.inl rfl) hi2
      exact hseq [delay 10, setTimeout i 500, setROICenter i 199, setROISize i 10 10]
        (by simp [lineStep]) (by simp [lineStep]) i2 this
    cases hok : initOk i with
    | false =>
      rw [hok] at hinit
      simp only [Bool.not_false, if_true, List.cons_append, List.nil_append, atEach_cons,
        atEach_nil, and_true, List.append_assoc]
      refine ⟨sequenced_other _ _ _ _ _ (by simp) (by simp),
        sequenced_other _ _ _ _ _ (by simp) (by simp),
        sequenced_other _ _ _ _ _ (by simp) (by simp),
        sequenced_other _ _ _ _ _ (by simp) (by simp),
        sequenced_other _ _ _ _ _ (by simp) (by simp), hinit _,
        sequenced_other _ _ _ _ _ (by simp) (by simp),
        sequenced_other _ _ _ _ _ (by simp) (by simp)⟩
    | true =>
      rw [hok] at hinit
      simp only [Bool.not_true, Bool.false_eq_true, if_false]
      rw [atEach_append]
      constructor
      · simp only [List.cons_append, List.nil_append, atEach_cons, atEach_nil, and_true,
          List.append_assoc]
        refine ⟨sequenced_other _ _ _ _ _ (by simp) (by simp),
          sequenced_other _ _ _ _ _ (by simp) (by simp),
          sequenced_other _ _ _ _ _ (by simp) (by simp),
          sequenced_other _ _ _ _ _ (by simp) (by simp),
          sequenced_other _ _ _ _ _ (by simp) (by simp), hinit _, ?_,
          sequenced_other _ _ _ _ _ (by simp) (by simp)⟩
        intro i2 hi2
        have := hidx _ i2 (Or.inr rfl) hi2
        exact hseq [delay 10, setTimeout i 500, setROICenter i 199, setROISize i 10 10,
          init i true] (by simp [lineStep]) (by simp [lineStep]) i2 this
      · have hbody := hseq [delay 10, setTimeout i 500, setROICenter i 199,
          setROISize i 10 10, init i true, setAddress i (0x2A + i), startContinuous i 50]
          (by simp [lineStep]) (by simp [lineStep]) i rfl
        apply ih (i + 1) _ (by omega)
        · intro j hij hjN
          have := hbody.1 j (by omega) hjN
          simpa using this
        · intro j hj
          by_cases hji : j = i
          · subst hji
            exact ⟨0x2A + j, by simp, by omega⟩
          · obtain ⟨a, ha, hne29⟩ := haddr j (by omega)
            exact ⟨a, List.mem_append_left _ ha, hne29⟩

theorem sequenced_sensor_init (N : Nat) (pins : Nat → Nat) (initOk : Nat → Bool)
    (hinj : ∀ j k, j < N → k < N → pins j = pins k → j = k) :
    AtEach (Sequenced N pins) [] (sensor_init N pins initOk).trace [] := by
  unfold sensor_init
  rw [sensor_init_reset_eq]
  show AtEach (Sequenced N pins) [] ((List.range N).flatMap (resetOne pins) ++ [delay 10]
    ++ (sensor_init_enable N pins initOk 0).trace) []
  rw [atEach_append, atEach_append]
  refine ⟨⟨?_, ?_⟩, ?_⟩
  · exact atEach_of_forall _ _ (fun e he pre post => not_sequenced_event_reset N pins _ e he pre post)
      _ _
  · rw [atEach_cons]
    exact ⟨sequenced_other _ _ _ _ _ (by simp) (by simp), atEach_nil _ _ _⟩
  · apply sequenced_enable N pins initOk hinj N 0 _ rfl
    · intro j _ hjN
      rw [List.nil_append, lineState_append]
      exact lineState_reset pins N j hjN
    · intro j hj
      omega

theorem released_other (pins : Nat → Nat) (pre : List Event) (e : Event)
    (post : List Event) (h1 : ∀ i ok, e ≠ init i ok) (h2 : ∀ i a, e ≠ setAddress i a) :
    ReleasedUpTo pins pre e post := by
  intro i hi
  rcases hi with ⟨ok, h⟩ | ⟨a, h⟩
  · exact absurd h (h1 i ok)
  · exact absurd h (h2 i a)

theorem released_enable (N : Nat) (pins : Nat → Nat) (initOk : Nat → Bool) (n : Nat) :
    ∀ i pre, N - i = n → releases pre = (List.range i).map pins →
      (∀ j, j < i → ∃ a, setAddress j a ∈ pre ∧ a ≠ 0x29) →
      AtEach (ReleasedUpTo pins) pre (sensor_init_enable N pins initOk i).trace [] := by
  induction n with
  | zero =>
    intro i pre h _ _
    rw [sensor_init_enable, if_neg (by omega)]
    exact atEach_nil _ _ _
  | succ n ih =>
    intro i pre h hpre haddr
    have hiN : i < N := by omega
    have hrel : ∀ mid : List Event, releases mid = [] →
        releases (pre ++ pinMode (pins i) PinMode.INPUT :: mid)
            = (List.range (i + 1)).map pins
          ∧ ∀ j, j < i → ∃ a,
              setAddress j a ∈ pre ++ pinMode (pins i) PinMode.INPUT :: mid ∧ a ≠ 0x29 := by
      intro mid hmid
      constructor
      · rw [releases_append, hpre, List.range_succ, List.map_append]
        show _ ++ pins i :: releases mid = _
        rw [hmid]
        rfl
      · intro j hj
        obtain ⟨a, ha, hne29⟩ := haddr j hj
        exact ⟨a, List.mem_append_left _ ha, hne29⟩
    have hidx : ∀ (e : Event) (i2 : Nat), e = init i (initOk i) ∨ e = setAddress i (0x2A + i) →
        ((∃ ok, e = init i2 ok) ∨ (∃ a, e = setAddress i2 a)) → i2 = i := by
      intro e i2 he hi2
      rcases he with rfl | rfl <;> rcases hi2 with ⟨_, h⟩ | ⟨_, h⟩
      · injection h with h1 _
        exact h1.symm
      · cases h
      · cases h
      · injection h with h1 _
        exact h1.symm
    rw [sensor_init_enable, if_pos hiN]
    have hinit : ∀ post, ReleasedUpTo pins
        (pre ++ [pinMode (pins i) PinMode.INPUT, delay 10, setTimeout i 500,
          setROICenter i 199, setROISize i 10 10]) (init i (initOk i)) post := by
      intro post i2 hi2
      rw [hidx _ i2 (Or.inl rfl) hi2]
      exact hrel _ rfl
    cases hok : initOk i with
    | false =>
      rw [hok] at hinit
      simp only [Bool.not_false, if_true, List.cons_append, List.nil_append, atEach_cons,
        atEach_nil, and_true, List.append_assoc]
      refine ⟨released_other _ _ _ _ (by simp) (by simp),
        released_other _ _ _ _ (by simp) (by simp),
        released_other _ _ _ _ (by simp) (by simp),
        released_other _ _ _ _ (by simp) (by simp),
        released_other _ _ _ _ (by simp) (by simp), hinit _,
        released_other _ _ _ _ (by simp) (by simp),
        released_other _ _ _ _ (by simp) (by simp)⟩
    | true =>
      rw [hok] at hinit
      simp only [Bool.not_true, Bool.false_eq_true, if_false]
      rw [atEach_append]
      constructor
      · simp only [List.cons_append, List.nil_append, atEach_cons, atEach_nil, and_true,
          List.append_assoc]
        refine ⟨released_other _ _ _ _ (by simp) (by simp),
          released_other _ _ _ _ (by simp) (by simp),
          released_other _ _ _ _ (by simp) (by simp),
          released_other _ _ _ _ (by simp) (by simp),
          released_other _ _ _ _ (by simp) (by simp), hinit _, ?_,
          released_other _ _ _ _ (by simp) (by simp)⟩
        intro i2 hi2
        rw [hidx _ i2 (Or.inr rfl) hi2]
        exact hrel _ rfl
      · have hbody := hrel [delay 10, setTimeout i 500, setROICenter i 199,
          setROISize i 10 10, init i true, setAddress i (0x2A + i), startContinuous i 50] rfl
        apply ih (i + 1) _ (by omega)
        · simpa using hbody.1
        · intro j hj
          by_cases hji : j = i
          · subst hji
            exact ⟨0x2A + j, by simp, by omega⟩
          · obtain ⟨a, ha, hne29⟩ := hbody.2 j (by omega)
            exact ⟨a, by simpa using ha, hne29⟩

theorem released_sensor_init (N : Nat) (pins : Nat → Nat) (initOk : Nat → Bool) :
    AtEach (ReleasedUpTo pins) [] (sensor_init N pins initOk).trace [] := by
  unfold sensor_init
  rw [sensor_init_reset_eq]
  show AtEach (ReleasedUpTo pins) [] ((List.range N).flatMap (resetOne pins) ++ [delay 10]
    ++ (sensor_init_enable N pins initOk 0).trace) []
  rw [atEach_append, atEach_append]
  refine ⟨⟨?_, ?_⟩, ?_⟩
  · refine atEach_of_forall _ _ (fun e he pre post => ?_) _ _
    simp only [List.mem_flatMap, resetOne, List.mem_cons, List.mem_singleton,
      List.not_mem_nil, or_false] at he
    obtain ⟨j, _, he⟩ := he
    rcases he with rfl | rfl <;> exact released_other _ _ _ _ (by simp) (by simp)
  · rw [atEach_cons]
    exact ⟨released_other _ _ _ _ (by simp) (by simp), atEach_nil _ _ _⟩
  · apply released_enable N pins initOk N 0 _ rfl
    · rw [List.nil_append, releases_append, releases_reset]
      rfl
    · intro j hj
      omega

theorem xshutPins_distinct : ∀ j k, j < 6 → k < 6 → xshutPins j = xshutPins k → j = k := by
  intro j k hj hk
  interval_cases j <;> interval_cases k <;> simp [xshutPins]

/-- C5: `sensor_init` first drives all `N` reset lines LOW, releasing none,
and then waits 10 ms; whenever `init()` or `setAddress` is called on sensor
`i`, the lines released so far are exactly those of the indices `0, ..., i`
and every earlier sensor has already been given an address other than the
default `0x29`; and, the pins being distinct, at that moment the lines of all
later indices are still held LOW and the line of sensor `i` is the released
one. -/
theorem sensor_init_sequencing (N : Nat) (pins : Nat → Nat) (initOk : Nat → Bool) :
    (∃ rest, (sensor_init N pins initOk).trace
        = (List.range N).flatMap (resetOne pins) ++ delay 10 :: rest)
      ∧ releases ((List.range N).flatMap (resetOne pins)) = []
      ∧ (∀ j, j < N → lineState (pins j) ((List.range N).flatMap (resetOne pins)) = heldLow)
      ∧ (∀ pre e post i, (sensor_init N pins initOk).trace = pre ++ e :: post →
          ((∃ ok, e = init i ok) ∨ (∃ a, e = setAddress i a)) →
          releases pre = (List.range (i + 1)).map pins
            ∧ ∀ j, j < i → ∃ a, setAddress j a ∈ pre ∧ a ≠ 0x29)
      ∧ ((∀ j k, j < N → k < N → pins j = pins k → j = k) →
          ∀ pre e post i, (sensor_init N pins initOk).trace = pre ++ e :: post →
            ((∃ ok, e = init i ok) ∨ (∃ a, e = setAddress i a)) →
            (∀ j, i < j → j < N → lineState (pins j) pre = heldLow)
              ∧ lineState (pins i) pre = LineState.released) := by
  refine ⟨⟨(sensor_init_enable N pins initOk 0).trace, ?_⟩, releases_reset pins _,
    fun j hj => lineState_reset pins N j hj, ?_, ?_⟩
  · unfold sensor_init
    rw [sensor_init_reset_eq]
    simp
  · intro pre e post i hsplit hi
    have := released_sensor_init N pins initOk pre e post hsplit i hi
    simpa using this
  · intro hinj pre e post i hsplit hi
    have := sequenced_sensor_init N pins initOk hinj pre e post hsplit i hi
    exact ⟨by simpa using this.1, by simpa using this.2.2⟩

/-- C5 at the first two pins of the firmware, at the `init()` of sensor 0:
the line of sensor 1 (pin 5) is held LOW and the line of sensor 0 (pin 4) is
released. -/
theorem sensor_init_sequencing_witness :
    (∀ j k, j < 2 → k < 2 → xshutPins j = xshutPins k → j = k)
      ∧ lineState (xshutPins 1)
          [pinMode 4 PinMode.OUTPUT, digitalWrite 4 Level.LOW, pinMode 5 PinMode.OUTPUT,
            digitalWrite 5 Level.LOW, delay 10, pinMode 4 PinMode.INPUT, delay 10,
            setTimeout 0 500, setROICenter 0 199, setROISize 0 10 10] = heldLow
      ∧ lineState (xshutPins 0)
          [pinMode 4 PinMode.OUTPUT, digitalWrite 4 Level.LOW, pinMode 5 PinMode.OUTPUT,
            digitalWrite 5 Level.LOW, delay 10, pinMode 4 PinMode.INPUT, delay 10,
            setTimeout 0 500, setROICenter 0 199, setROISize 0 10 10] = LineState.released :=
  have hinj : ∀ j k, j < 2 → k < 2 → xshutPins j = xshutPins k → j = k :=
    fun j k hj hk => xshutPins_distinct j k (by omega) (by omega)
  have htrace : (sensor_init 2 xshutPins (fun _ => true)).trace
      = [pinMode 4 PinMode.OUTPUT, digitalWrite 4 Level.LOW, pinMode 5 PinMode.OUTPUT,
          digitalWrite 5 Level.LOW, delay 10, pinMode 4 PinMode.INPUT, delay 10,
          setTimeout 0 500, setROICenter 0 199, setROISize 0 10 10]
        ++ init 0 true :: [setAddress 0 42, startContinuous 0 50, pinMode 5 PinMode.INPUT,
          delay 10, setTimeout 1 500, setROICenter 1 199, setROISize 1 10 10, init 1 true,
          setAddress 1 43, startContinuous 1 50] := by
    rw [sensor_init_ok 2 xshutPins (fun _ => true) (fun _ _ => rfl)]
    rfl
  have h := (sensor_init_sequencing 2 xshutPins (fun _ => true)).2.2.2.2 hinj _ _ _ 0 htrace
    (Or.inl ⟨true, rfl⟩)
  ⟨hinj, h.1 1 (by decide) (by decide), h.2⟩

/-- C7 at the first three pins of the firmware, sensor 1 failing its
`init()`: the run ends in the restart, and the lines released are those of
sensors 0 and 1 (pins 4 and 5). -/
theorem sensor_init_failure_witness :
    1 < 3 ∧ (fun i => i != 1) 1 = false ∧ (∀ j, j < 1 → (fun i => i != 1) j = true)
      ∧ (sensor_init 3 xshutPins (fun i => i != 1)).outcome = Outcome.restarted
      ∧ releases (sensor_init 3 xshutPins (fun i => i != 1)).trace
          = (List.range (1 + 1)).map xshutPins :=
  have hfirst : ∀ j, j < 1 → (fun i => i != 1) j = true := by
    intro j hj
    interval_cases j
    rfl
  have h := sensor_init_failure 3 xshutPins (fun i => i != 1) 1 (by decide) rfl hfirst
  ⟨by decide, rfl, hfirst, h.1, h.2.2.2.2.2.1⟩

/-! ## The Monitor Task: shape of its trace -/

theorem steady_append (tick : Nat) (a b : List Event) (ha : Steady tick a)
    (hb : Steady tick b) : Steady tick (a ++ b) := by
  induction ha with
  | nil => exact hb
  | quiet e t he _ ih => exact Steady.quiet e _ he ih
  | awaken t _ ih =>
    rw [List.append_assoc]
    exact Steady.awaken _ ih

theorem steady_of_quiet (tick : Nat) (t : List Event) (h : ∀ e, e ∈ t → isQuiet e = true) :
    Steady tick t := by
  induction t with
  | nil => exact Steady.nil
  | cons e t ih =>
    exact Steady.quiet e t (h e (List.mem_cons_self _ _))
      (ih (fun x hx => h x (List.mem_cons_of_mem _ hx)))

theorem task_2_body_timeout (tick : Nat) (debug : Bool) (thr i : Nat) (r : ReadResult)
    (h : r.timeout = true) :
    task_2_body tick debug thr i r
      = ⟨[Event.read i r.sensor_val, timeoutOccurred i true, restart], Outcome.restarted⟩ := by
  simp [task_2_body, h]

theorem task_2_body_trigger (tick : Nat) (debug : Bool) (thr i : Nat) (r : ReadResult)
    (h : r.timeout = false) (hlt : r.sensor_val < thr) :
    task_2_body tick debug thr i r
      = ⟨[Event.read i r.sensor_val, timeoutOccurred i false]
          ++ (if debug then [serial, vTaskDelay (50 / tick)] else [])
          ++ awakenBlock tick
          ++ (if debug then [serial, vTaskDelay (500 / tick)] else [])
          ++ (if debug then [serial, timeoutOccurred i false, serial] else []),
        Outcome.completed⟩ := by
  cases debug <;> simp [task_2_body, h, hlt, awakenBlock]

theorem task_2_body_calm (tick : Nat) (debug : Bool) (thr i : Nat) (r : ReadResult)
    (h : r.timeout = false) (hge : ¬ r.sensor_val < thr) :
    task_2_body tick debug thr i r
      = ⟨[Event.read i r.sensor_val, timeoutOccurred i false]
          ++ (if debug then [serial, vTaskDelay (50 / tick)] else [])
          ++ (if debug then [serial, timeoutOccurred i false, serial] else []),
        Outcome.completed⟩ := by
  cases debug <;> simp [task_2_body, h, hge]

theorem task_2_body_shape (tick : Nat) (debug : Bool) (thr i : Nat) (r : ReadResult) :
    MonitorShape tick (task_2_body tick debug thr i r) := by
  cases h : r.timeout with
  | true =>
    rw [task_2_body_timeout tick debug thr i r h]
    exact ⟨[], _, rfl, Steady.nil, Or.inr ⟨rfl, i, r.sensor_val, rfl⟩⟩
  | false =>
    by_cases hlt : r.sensor_val < thr
    · rw [task_2_body_trigger tick debug thr i r h hlt]
      refine ⟨_, [], (List.append_nil _).symm, ?_, Or.inl ⟨rfl, rfl⟩⟩
      refine steady_append _ _ _ (steady_append _ _ _ (steady_append _ _ _
        (steady_append _ _ _ ?_ ?_) ?_) ?_) ?_
      · exact steady_of_quiet _ _ (by simp [isQuiet])
      · cases debug <;> exact steady_of_quiet _ _ (by simp [isQuiet])
      · have := Steady.awaken [] (Steady.nil : Steady tick [])
        simpa using this
      · cases debug <;> exact steady_of_quiet _ _ (by simp [isQuiet])
      · cases debug <;> exact steady_of_quiet _ _ (by simp [isQuiet])
    · rw [task_2_body_calm tick debug thr i r h hlt]
      refine ⟨_, [], (List.append_nil _).symm, ?_, Or.inl ⟨rfl, rfl⟩⟩
      refine steady_append _ _ _ (steady_append _ _ _ ?_ ?_) ?_
      · exact steady_of_quiet _ _ (by simp [isQuiet])
      · cases debug <;> exact steady_of_quiet _ _ (by simp [isQuiet])
      · cases debug <;> exact steady_of_quiet _ _ (by simp [isQuiet])

theorem monitorShape_seq (tick : Nat) (r1 r2 : Run) (h1 : MonitorShape tick r1)
    (h2 : MonitorShape tick r2) :
    MonitorShape tick
      (match r1.outcome with
        | Outcome.restarted => r1
        | Outcome.completed => ⟨r1.trace ++ r2.trace, r2.outcome⟩) := by
  cases ho : r1.outcome with
  | restarted => exact h1
  | completed =>
    obtain ⟨s1, tail1, ht1, hs1, hc1⟩ := h1
    obtain ⟨s2, tail2, ht2, hs2, hc2⟩ := h2
    rcases hc1 with ⟨_, rfl⟩ | ⟨hr, _⟩
    · refine ⟨s1 ++ s2, tail2, ?_, steady_append _ _ _ hs1 hs2, hc2⟩
      simp [ht1, ht2]
    · rw [ho] at hr
      cases hr

theorem task_2_for_shape (tick : Nat) (debug : Bool) (count thr : Nat)
    (reads : Nat → ReadResult) (n : Nat) :
    ∀ i, count - i = n → MonitorShape tick (task_2_for tick debug count thr reads i) := by
  induction n with
  | zero =>
    intro i h
    rw [task_2_for, if_neg (by omega)]
    exact ⟨[], [], rfl, Steady.nil, Or.inl ⟨rfl, rfl⟩⟩
  | succ n ih =>
    intro i h
    rw [task_2_for, if_pos (by omega)]
    exact monitorShape_seq tick _ _ (task_2_body_shape tick debug thr i (reads i))
      (ih (i + 1) (by omega))

theorem task_2_shape (tick : Nat) (debug : Bool) (count thr : Nat)
    (reads : Nat → Nat → ReadResult) (rounds : Nat) :
    ∀ k, MonitorShape tick (task_2 tick debug count thr reads rounds k) := by
  induction rounds with
  | zero =>
    intro k
    exact ⟨[], [], rfl, Steady.nil, Or.inl ⟨rfl, rfl⟩⟩
  | succ rounds ih =>
    intro k
    rw [task_2]
    exact monitorShape_seq tick _ _ (task_2_for_shape tick debug count thr (reads k) _ 0 rfl)
      (ih (k + 1))

/-! ## The Monitor Task: what holds at each call -/

theorem suspendedAfter_snoc (pre : List Event) (e : Event) :
    suspendedAfter (pre ++ [e]) = suspendStep (suspendedAfter pre) e := by
  simp [suspendedAfter, List.foldl_append]

theorem mem_pulse_awaken (tick : Nat) (e : Event) (h : e ∈ pulse_awaken tick) :
    (∃ c d, e = ledcWrite c d) ∨ (∃ n, e = vTaskDelay n) := by
  rw [pulse_awaken_eq] at h
  simp only [List.mem_append, List.mem_flatMap, List.mem_cons, List.mem_singleton,
    List.not_mem_nil, or_false] at h
  rcases h with (⟨l, _, h | h⟩ | h) | ⟨l, _, h | h⟩
  · exact Or.inl ⟨_, _, h⟩
  · exact Or.inr ⟨_, h⟩
  · exact Or.inr ⟨_, h⟩
  · exact Or.inl ⟨_, _, h⟩
  · exact Or.inr ⟨_, h⟩

theorem protocol_ramp (tick : Nat) (L : List Event)
    (hL : ∀ e, e ∈ L → (∃ c d, e = ledcWrite c d) ∨ (∃ n, e = vTaskDelay n)) :
    ∀ pre post, suspendedAfter pre = true →
      AtEach (Protocol tick) pre L post ∧ suspendedAfter (pre ++ L) = true := by
  induction L with
  | nil =>
    intro pre post h
    exact ⟨atEach_nil _ _ _, by simpa using h⟩
  | cons e L ih =>
    intro pre post h
    have hnext : suspendedAfter (pre ++ [e]) = true := by
      rw [suspendedAfter_snoc, h]
      rcases hL e (List.mem_cons_self _ _) with ⟨c, d, rfl⟩ | ⟨n, rfl⟩ <;> rfl
    obtain ⟨h1, h2⟩ := ih (fun x hx => hL x (List.mem_cons_of_mem _ hx)) (pre ++ [e]) post hnext
    rw [atEach_cons]
    refine ⟨⟨?_, h1⟩, by simpa using h2⟩
    rcases hL e (List.mem_cons_self _ _) with ⟨c, d, rfl⟩ | ⟨n, rfl⟩
    · exact h
    · trivial

theorem protocol_quiet (tick : Nat) (pre : List Event) (e : Event) (suf : List Event)
    (h : isQuiet e = true) : Protocol tick pre e suf := by
  cases e with
  | timeoutOccurred i res => cases res <;> simp_all [isQuiet, Protocol]
  | _ => simp_all [isQuiet, Protocol]

theorem suspendStep_quiet (s : Bool) (e : Event) (h : isQuiet e = true) :
    suspendStep s e = s := by
  cases e <;> simp_all [isQuiet, suspendStep]

theorem protocol_steady (tick : Nat) (s : List Event) (hs : Steady tick s) :
    ∀ pre post, suspendedAfter pre = false →
      AtEach (Protocol tick) pre s post ∧ suspendedAfter (pre ++ s) = false := by
  induction hs with
  | nil =>
    intro pre post h
    exact ⟨atEach_nil _ _ _, by simpa using h⟩
  | quiet e t he _ ih =>
    intro pre post h
    have hnext : suspendedAfter (pre ++ [e]) = false := by
      rw [suspendedAfter_snoc, suspendStep_quiet _ _ he, h]
    obtain ⟨h1, h2⟩ := ih (pre ++ [e]) post hnext
    rw [atEach_cons]
    exact ⟨⟨protocol_quiet tick _ _ _ he, h1⟩, by simpa using h2⟩
  | awaken t _ ih =>
    intro pre post h
    have h1 : suspendedAfter (pre ++ [vTaskSuspend Handle.handle_1]) = true := by
      rw [suspendedAfter_snoc]
      rfl
    obtain ⟨hr1, hr2⟩ := protocol_ramp tick (pulse_awaken tick) (mem_pulse_awaken tick)
      (pre ++ [vTaskSuspend Handle.handle_1])
      ([vTaskDelay (20 / tick), vTaskResume Handle.handle_1] ++ (t ++ post)) h1
    have h3 : suspendedAfter (pre ++ [vTaskSuspend Handle.handle_1] ++ pulse_awaken tick
        ++ [vTaskDelay (20 / tick)]) = true := by
      rw [suspendedAfter_snoc, hr2]
      rfl
    have h4 : suspendedAfter (pre ++ awakenBlock tick) = false := by
      have : pre ++ awakenBlock tick = pre ++ [vTaskSuspend Handle.handle_1]
          ++ pulse_awaken tick ++ [vTaskDelay (20 / tick)]
          ++ [vTaskResume Handle.handle_1] := by
        simp [awakenBlock]
      rw [this, suspendedAfter_snoc, h3]
      rfl
    obtain ⟨ht1, ht2⟩ := ih (pre ++ awakenBlock tick) post h4
    rw [atEach_append]
    refine ⟨⟨?_, ht1⟩, by simpa using ht2⟩
    unfold awakenBlock
    rw [atEach_cons, atEach_append, atEach_cons, atEach_cons]
    refine ⟨?_, hr1, ?_, ?_, atEach_nil _ _ _⟩
    · exact ⟨rfl, h, t ++ post, by simp⟩
    · trivial
    · exact ⟨rfl, h3⟩

theorem protocol_tail (tick : Nat) (pre : List Event) (i v : Nat) :
    AtEach (Protocol tick) pre [Event.read i v, timeoutOccurred i true, restart] [] := by
  rw [atEach_cons, atEach_cons, atEach_cons]
  refine ⟨trivial, ?_, ?_, atEach_nil _ _ _⟩
  · exact ⟨⟨pre, v, rfl⟩, rfl⟩
  · rfl

theorem protocol_of_shape (tick : Nat) (r : Run) (h : MonitorShape tick r) :
    AtEach (Protocol tick) [] r.trace [] := by
  obtain ⟨s, tail, ht, hs, hc⟩ := h
  rw [ht, atEach_append]
  obtain ⟨h1, _⟩ := protocol_steady tick s hs [] (tail ++ []) rfl
  refine ⟨h1, ?_⟩
  rcases hc with ⟨_, rfl⟩ | ⟨_, i, v, rfl⟩
  · exact atEach_nil _ _ _
  · exact protocol_tail tick _ i v

theorem protocol_task_2 (tick : Nat) (debug : Bool) (count thr : Nat)
    (reads : Nat → Nat → ReadResult) (rounds k : Nat) :
    AtEach (Protocol tick) [] (task_2 tick debug count thr reads rounds k).trace [] :=
  protocol_of_shape tick _ (task_2_shape tick debug count thr reads rounds k)

/-! ## The Monitor Task: calls that drive -/

theorem drive_append (a b : List Event) : drive (a ++ b) = drive a ++ drive b := by
  induction a with
  | nil => rfl
  | cons e a ih => cases e <;> simp [drive, ih]

theorem drive_ramp (c n : Nat) (L : List Int) :
    drive (L.flatMap (fun l => [ledcWrite c l, vTaskDelay n])) = L.map (ledcWrite c) := by
  induction L with
  | nil => rfl
  | cons l L ih =>
    rw [List.flatMap_cons, List.map_cons]
    show ledcWrite c l :: drive (L.flatMap (fun l => [ledcWrite c l, vTaskDelay n])) = _
    rw [ih]

theorem drive_pulse_awaken (tick : Nat) :
    drive (pulse_awaken tick) = awakenLevels.map (ledcWrite PWM_channel) := by
  rw [pulse_awaken_eq, drive_append, drive_append, drive_ramp, drive_ramp, awakenLevels,
    List.map_append]
  show _ ++ [] ++ _ = _
  rw [List.append_nil]

theorem drive_awakenBlock (tick : Nat) :
    drive (awakenBlock tick)
      = vTaskSuspend Handle.handle_1
          :: (awakenLevels.map (ledcWrite PWM_channel) ++ [vTaskResume Handle.handle_1]) := by
  unfold awakenBlock
  show vTaskSuspend Handle.handle_1 :: drive (pulse_awaken tick
    ++ [vTaskDelay (20 / tick), vTaskResume Handle.handle_1]) = _
  rw [drive_append, drive_pulse_awaken]
  rfl

theorem drive_quiet (e : Event) (t : List Event) (h : isQuiet e = true) :
    drive (e :: t) = drive t := by
  cases e <;> simp_all [isQuiet, drive]

theorem drive_steady (tick : Nat) (s : List Event) (hs : Steady tick s) :
    ∃ n, drive s = (List.replicate n (drive (awakenBlock tick))).flatten := by
  induction hs with
  | nil => exact ⟨0, rfl⟩
  | quiet e t he _ ih =>
    obtain ⟨n, hn⟩ := ih
    exact ⟨n, by rw [drive_quiet e t he, hn]⟩
  | awaken t _ ih =>
    obtain ⟨n, hn⟩ := ih
    exact ⟨n + 1, by rw [drive_append, hn, List.replicate_succ, List.flatten_cons]⟩

theorem drive_of_shape (tick : Nat) (r : Run) (h : MonitorShape tick r) :
    ∃ n, drive r.trace = (List.replicate n (drive (awakenBlock tick))).flatten := by
  obtain ⟨s, tail, ht, hs, hc⟩ := h
  obtain ⟨n, hn⟩ := drive_steady tick s hs
  refine ⟨n, ?_⟩
  rw [ht, drive_append, hn]
  rcases hc with ⟨_, rfl⟩ | ⟨_, i, v, rfl⟩
  · simp [drive]
  · simp [drive]

/-! ## Two tasks: the scheduling rule -/

theorem project_append (t : TaskId) (a b : List (TaskId × Event)) :
    project t (a ++ b) = project t a ++ project t b := by
  induction a with
  | nil => rfl
  | cons x a ih =>
    obtain ⟨t', e⟩ := x
    by_cases h : t' = t <;> simp [project, h, ih]

theorem project_map_same (t : TaskId) (l : List Event) :
    project t (l.map (fun e => (t, e))) = l := by
  induction l with
  | nil => rfl
  | cons e l ih => simp [project, ih]

theorem project_map_other (t t' : TaskId) (h : t' ≠ t) (l : List Event) :
    project t (l.map (fun e => (t', e))) = [] := by
  induction l with
  | nil => rfl
  | cons e l ih => simp [project, h, ih]

theorem schedOk_split (a : List (TaskId × Event)) :
    ∀ (s : Bool) (x : TaskId × Event) (b : List (TaskId × Event)),
      schedOk s (a ++ x :: b) = true →
      schedOk ((project TaskId.monitor a).foldl suspendStep s) (x :: b) = true := by
  induction a with
  | nil =>
    intro s x b h
    exact h
  | cons y a ih =>
    intro s x b h
    obtain ⟨t, e⟩ := y
    cases t with
    | idle =>
      simp only [List.cons_append, schedOk, Bool.and_eq_true] at h
      have := ih s x b h.2
      simpa [project] using this
    | monitor =>
      simp only [List.cons_append, schedOk] at h
      by_cases he : e = restart
      · rw [if_pos he] at h
        simp at h
      · rw [if_neg he] at h
        have := ih (suspendStep s e) x b h
        simpa [project] using this

theorem suspendStep_true (e : Event) (h : e ≠ vTaskResume Handle.handle_1) :
    suspendStep true e = true := by
  cases e with
  | vTaskResume hd =>
    cases hd
    · exact absurd rfl h
    · rfl
  | vTaskSuspend hd => cases hd <;> rfl
  | _ => rfl

theorem schedOk_no_idle (mid : List (TaskId × Event)) :
    ∀ (x : TaskId × Event) (b : List (TaskId × Event)),
      schedOk true (mid ++ x :: b) = true →
      (TaskId.monitor, vTaskResume Handle.handle_1) ∉ mid →
      ∀ e, (TaskId.idle, e) ∉ mid := by
  induction mid with
  | nil =>
    intro x b _ _ e he
    cases he
  | cons y mid ih =>
    intro x b h hres e he
    obtain ⟨t, e'⟩ := y
    cases t with
    | idle =>
      simp [schedOk] at h
    | monitor =>
      simp only [List.cons_append, schedOk] at h
      by_cases hr : e' = restart
      · rw [if_pos hr] at h
        simp at h
      · rw [if_neg hr] at h
        have hne : e' ≠ vTaskResume Handle.handle_1 := by
          intro hc
          exact hres (by rw [hc]; exact List.mem_cons_self _ _)
        rw [suspendStep_true e' hne] at h
        rcases List.mem_cons.mp he with hh | hh
        · cases hh
        · exact ih x b h (fun hm => hres (List.mem_cons_of_mem _ hm)) e hh

theorem no_idle_step_inside_awaken (tick : Nat) (debug : Bool) (count thr : Nat)
    (reads : Nat → Nat → ReadResult) (g : List (TaskId × Event))
    (hg : Interleaving tick debug count thr reads g)
    (pre mid post : List (TaskId × Event)) (c1 : Nat) (d1 : Int) (x : TaskId × Event)
    (hsplit : g = pre ++ (TaskId.monitor, ledcWrite c1 d1) :: (mid ++ x :: post))
    (hres : (TaskId.monitor, vTaskResume Handle.handle_1) ∉ mid) :
    ∀ e, (TaskId.idle, e) ∉ mid := by
  obtain ⟨rounds, rest, hmon⟩ := hg.monitor
  have hproj : (task_2 tick debug count thr reads rounds 0).trace
      = project TaskId.monitor pre
        ++ ledcWrite c1 d1 :: (project TaskId.monitor (mid ++ x :: post) ++ rest) := by
    rw [← hmon, hsplit, project_append]
    simp [project]
  have hsusp : suspendedAfter (project TaskId.monitor pre) = true := by
    have := protocol_task_2 tick debug count thr reads rounds 0 _ _ _ hproj
    simpa [Protocol] using this
  have hs := hg.sched
  rw [hsplit] at hs
  have h1 := schedOk_split pre false _ _ hs
  change schedOk (suspendedAfter (project TaskId.monitor pre)) _ = true at h1
  rw [hsusp] at h1
  simp only [schedOk] at h1
  rw [if_neg (by simp)] at h1
  exact schedOk_no_idle mid x post h1 hres

/-! ## The sample run -/

theorem task_2_exReads :
    (task_2 1 true sensor_count sensor_threshold exReads 1 0).trace
      = [Event.read 0 5, timeoutOccurred 0 false, serial, vTaskDelay 50,
          vTaskSuspend Handle.handle_1] ++ pulse_awaken 1
        ++ [vTaskDelay 20, vTaskResume Handle.handle_1, serial, vTaskDelay 500, serial,
          timeoutOccurred 0 false, serial] := by
  simp [task_2, task_2_for, task_2_body, exReads, sensor_count, sensor_threshold]

theorem pulse_awaken_head :
    pulse_awaken 1 = ledcWrite PWM_channel 30 :: vTaskDelay 20 :: ledcWrite PWM_channel 31
      :: (pulse_awaken 1).drop 3 := by
  have h : ∃ Y, pulse_awaken 1
      = ledcWrite PWM_channel 30 :: vTaskDelay 20 :: ledcWrite PWM_channel 31 :: Y := by
    rw [pulse_awaken_eq, show (226 : Nat) = 224 + 1 + 1 from rfl, ascending_succ,
      ascending_succ]
    exact ⟨_, rfl⟩
  obtain ⟨Y, hY⟩ := h
  rw [hY]
  rfl

theorem task_1_head :
    task_1 1 true 1 = ledcWrite PWM_channel 30 :: vTaskDelay 30 :: ledcWrite PWM_channel 31
      :: (task_1 1 true 1).drop 3 := by
  have h : ∃ Y, task_1 1 true 1
      = ledcWrite PWM_channel 30 :: vTaskDelay 30 :: ledcWrite PWM_channel 31 :: Y := by
    unfold task_1 task_1_body
    rw [pulse_idle_eq, show (91 : Nat) = 89 + 1 + 1 from rfl, ascending_succ, ascending_succ]
    exact ⟨_, rfl⟩
  obtain ⟨Y, hY⟩ := h
  rw [hY]
  rfl

theorem schedOk_map_monitor (t : List Event) :
    ∀ (s : Bool) (g : List (TaskId × Event)), restart ∉ t →
      schedOk s (t.map (fun e => (TaskId.monitor, e)) ++ g) = schedOk (t.foldl suspendStep s) g := by
  induction t with
  | nil =>
    intro s g _
    rfl
  | cons e t ih =>
    intro s g h
    have he : e ≠ restart := fun hc => h (by rw [hc]; exact List.mem_cons_self _ _)
    simp only [List.map_cons, List.cons_append, schedOk, if_neg he, List.foldl_cons]
    exact ih _ g (fun hm => h (List.mem_cons_of_mem _ hm))

theorem schedOk_idle_running (e : Event) (g : List (TaskId × Event)) :
    schedOk false ((TaskId.idle, e) :: g) = schedOk false g := by
  simp [schedOk]

theorem exInterleaving_ok :
    Interleaving 1 true sensor_count sensor_threshold exReads exInterleaving := by
  refine ⟨⟨1, [], ?_⟩, ⟨1, (task_1 1 true 1).drop 3, ?_⟩, ?_⟩
  · rw [task_2_exReads, List.append_nil]
    unfold exInterleaving exBefore exAfter
    rw [project_append, project_append, project_map_same]
    simp [project]
  · have h : project TaskId.idle exInterleaving
        = [ledcWrite PWM_channel 30, vTaskDelay 30, ledcWrite PWM_channel 31] := by
      unfold exInterleaving exBefore exAfter
      rw [project_append, project_append, project_map_other _ _ (by decide)]
      simp [project]
    rw [h]
    exact task_1_head.symm
  · have hno : restart ∉ [Event.read 0 5, timeoutOccurred 0 false, serial, vTaskDelay 50,
        vTaskSuspend Handle.handle_1] ++ pulse_awaken 1 ++ [vTaskDelay 20] := by
      intro hm
      simp only [List.mem_append, List.mem_cons, List.mem_singleton, List.not_mem_nil,
        or_false] at hm
      rcases hm with (hm | hm) | hm
      · simp at hm
      · rcases mem_pulse_awaken 1 _ hm with ⟨_, _, h⟩ | ⟨_, h⟩ <;> cases h
      · cases hm
    have hst : ([Event.read 0 5, timeoutOccurred 0 false, serial, vTaskDelay 50,
        vTaskSuspend Handle.handle_1] ++ pulse_awaken 1 ++ [vTaskDelay 20]).foldl
          suspendStep false = true := by
      have h2 := (protocol_ramp 1 (pulse_awaken 1) (mem_pulse_awaken 1)
        [Event.read 0 5, timeoutOccurred 0 false, serial, vTaskDelay 50,
          vTaskSuspend Handle.handle_1] [] rfl).2
      have h3 := suspendedAfter_snoc ([Event.read 0 5, timeoutOccurred 0 false, serial,
        vTaskDelay 50, vTaskSuspend Handle.handle_1] ++ pulse_awaken 1) (vTaskDelay 20)
      rw [h2] at h3
      exact h3
    unfold exInterleaving exBefore
    rw [List.append_assoc]
    show schedOk false ((TaskId.idle, ledcWrite PWM_channel 30)
      :: (TaskId.idle, vTaskDelay 30) :: _) = true
    rw [schedOk_idle_running, schedOk_idle_running]
    show schedOk false (List.map (fun e => (TaskId.monitor, e)) _ ++ _) = true
    rw [schedOk_map_monitor _ _ _ hno, hst]
    rfl

theorem exInterleaving_split :
    exInterleaving
      = ([(TaskId.idle, ledcWrite PWM_channel 30), (TaskId.idle, vTaskDelay 30),
            (TaskId.monitor, Event.read 0 5), (TaskId.monitor, timeoutOccurred 0 false),
            (TaskId.monitor, serial), (TaskId.monitor, vTaskDelay 50),
            (TaskId.monitor, vTaskSuspend Handle.handle_1)])
        ++ (TaskId.monitor, ledcWrite PWM_channel 30)
          :: ([(TaskId.monitor, vTaskDelay 20)] ++ (TaskId.monitor, ledcWrite PWM_channel 31)
            :: ((((pulse_awaken 1).drop 3) ++ [vTaskDelay 20]).map
                  (fun e => (TaskId.monitor, e))
                ++ (TaskId.monitor, vTaskResume Handle.handle_1) :: exAfter)) := by
  unfold exInterleaving exBefore
  rw [pulse_awaken_head]
  simp

/-! ## The Monitor Task: fault escalation and trigger -/

theorem restart_is_last (tick : Nat) (debug : Bool) (count thr : Nat)
    (reads : Nat → Nat → ReadResult) (rounds k : Nat) (a b : List Event)
    (h : (task_2 tick debug count thr reads rounds k).trace = a ++ restart :: b) : b = [] := by
  have := protocol_task_2 tick debug count thr reads rounds k a restart b h
  simpa [Protocol] using this

/-- C6: in a run of `task_2`, a `timeoutOccurred()` that returns true comes
right after the read of the same sensor and is followed by the restart, which
is the last call of the run and its only restart: between that read and the
restart there is no suspend, no actuator write, no resume and no other read,
whatever distance the read returned. -/
theorem task_2_fault_escalation (tick : Nat) (debug : Bool) (count thr : Nat)
    (reads : Nat → Nat → ReadResult) (rounds k : Nat) (pre post : List Event) (i : Nat)
    (h : (task_2 tick debug count thr reads rounds k).trace
      = pre ++ timeoutOccurred i true :: post) :
    (∃ before v, (task_2 tick debug count thr reads rounds k).trace
        = before ++ [Event.read i v, timeoutOccurred i true, restart] ∧ restart ∉ before)
      ∧ post = [restart]
      ∧ (task_2 tick debug count thr reads rounds k).trace.count restart = 1 := by
  have hp := protocol_task_2 tick debug count thr reads rounds k pre _ post h
  simp only [Protocol, List.nil_append, List.append_nil] at hp
  obtain ⟨⟨before, v, hpre⟩, hpost⟩ := hp
  have hno : restart ∉ pre := by
    intro hm
    obtain ⟨a, b, hab⟩ := List.append_of_mem hm
    have := restart_is_last tick debug count thr reads rounds k a
      (b ++ timeoutOccurred i true :: post) (by rw [h, hab]; simp)
    simp at this
  refine ⟨⟨before, v, ?_, ?_⟩, hpost, ?_⟩
  · rw [h, hpre, hpost]
    simp
  · intro hm
    exact hno (by rw [hpre]; exact List.mem_append_left _ hm)
  · rw [h, hpost, List.count_append, List.count_eq_zero_of_not_mem hno]
    simp

/-- C6 on a run whose first read returns 5, below the threshold, and times
out. -/
theorem task_2_fault_escalation_witness :
    (task_2 1 true sensor_count sensor_threshold faultReads 1 0).trace
        = [Event.read 0 5] ++ timeoutOccurred 0 true :: [restart]
      ∧ (task_2 1 true sensor_count sensor_threshold faultReads 1 0).trace.count restart = 1 :=
  have h : (task_2 1 true sensor_count sensor_threshold faultReads 1 0).trace
      = [Event.read 0 5] ++ timeoutOccurred 0 true :: [restart] := by
    simp [task_2, task_2_for, task_2_body, faultReads, sensor_count, sensor_threshold]
  ⟨h, (task_2_fault_escalation 1 true sensor_count sensor_threshold faultReads 1 0
    [Event.read 0 5] [restart] 0 h).2.2⟩

theorem readCount_append (a b : List Event) : readCount (a ++ b) = readCount a + readCount b := by
  induction a with
  | nil => simp [readCount]
  | cons e a ih =>
    cases e with
    | read i v =>
      show readCount (a ++ b) + 1 = readCount a + 1 + readCount b
      rw [ih]
      omega
    | _ => simp [readCount, ih]

theorem readCount_pulse_awaken (tick : Nat) : readCount (pulse_awaken tick) = 0 := by
  have h : ∀ L : List Event,
      (∀ e, e ∈ L → (∃ c d, e = ledcWrite c d) ∨ (∃ n, e = vTaskDelay n)) → readCount L = 0 := by
    intro L
    induction L with
    | nil => intro _; rfl
    | cons e L ih =>
      intro hL
      have ht := ih (fun x hx => hL x (List.mem_cons_of_mem _ hx))
      rcases hL e (List.mem_cons_self _ _) with ⟨c, d, rfl⟩ | ⟨n, rfl⟩ <;> simpa [readCount] using ht
  exact h _ (mem_pulse_awaken tick)

theorem readCount_awakenBlock (tick : Nat) : readCount (awakenBlock tick) = 0 := by
  unfold awakenBlock
  show readCount (pulse_awaken tick ++ [vTaskDelay (20 / tick), vTaskResume Handle.handle_1]) = 0
  rw [readCount_append, readCount_pulse_awaken]
  rfl

/-- C1, as the code has it: a pass of the loop of `task_2` for sensor `i`
takes one read; if that read, without timeout, is below the threshold, the
pass suspends the Idle Task and runs `pulse_awaken` (the inner test compares
the same value again, no second read is taken); if it is not below the
threshold, the pass issues no suspend, no resume and no actuator write. -/
theorem task_2_trigger (tick : Nat) (debug : Bool) (thr i : Nat) (r : ReadResult)
    (h : r.timeout = false) :
    readCount (task_2_body tick debug thr i r).trace = 1
      ∧ (r.sensor_val < thr →
          (task_2_body tick debug thr i r).trace
            = [Event.read i r.sensor_val, timeoutOccurred i false]
              ++ (if debug then [serial, vTaskDelay (50 / tick)] else [])
              ++ vTaskSuspend Handle.handle_1
                :: (pulse_awaken tick ++ [vTaskDelay (20 / tick), vTaskResume Handle.handle_1])
              ++ (if debug then [serial, vTaskDelay (500 / tick)] else [])
              ++ (if debug then [serial, timeoutOccurred i false, serial] else []))
      ∧ (¬ r.sensor_val < thr → drive (task_2_body tick debug thr i r).trace = [])
      ∧ (vTaskSuspend Handle.handle_1 ∈ (task_2_body tick debug thr i r).trace
          ↔ r.sensor_val < thr) := by
  by_cases hlt : r.sensor_val < thr
  · rw [task_2_body_trigger tick debug thr i r h hlt]
    refine ⟨?_, fun _ => rfl, fun hn => absurd hlt hn, ?_⟩
    · simp only [readCount_append, readCount_awakenBlock]
      cases debug <;> rfl
    · simp [awakenBlock, hlt]
  · rw [task_2_body_calm tick debug thr i r h hlt]
    refine ⟨?_, fun hn => absurd hn hlt, fun _ => ?_, ?_⟩
    · cases debug <;> rfl
    · cases debug <;> rfl
    · cases debug <;> simp [hlt]

/-- C1 at sensor 0 with the threshold of the firmware: one read of 5 starts
the awaken sequence. -/
theorem task_2_trigger_witness :
    (⟨5, false⟩ : ReadResult).timeout = false
      ∧ readCount (task_2_body 1 true sensor_threshold 0 ⟨5, false⟩).trace = 1
      ∧ vTaskSuspend Handle.handle_1 ∈ (task_2_body 1 true sensor_threshold 0 ⟨5, false⟩).trace :=
  have h := task_2_trigger 1 true sensor_threshold 0 ⟨5, false⟩ rfl
  ⟨rfl, h.1, h.2.2.2.mpr (by decide)⟩

/-- C1 fails as stated: in a run whose reads are 500, 5, 500, the single
read below the threshold, with reads above it before and after, suspends the
Idle Task and runs the whole awaken sequence. -/
theorem single_read_starts_awaken :
    (task_2 1 true sensor_count sensor_threshold loneLowReads 3 0).trace
      = [Event.read 0 500, timeoutOccurred 0 false, serial, vTaskDelay 50, serial,
          timeoutOccurred 0 false, serial,
          Event.read 0 5, timeoutOccurred 0 false, serial, vTaskDelay 50,
          vTaskSuspend Handle.handle_1]
        ++ pulse_awaken 1
        ++ [vTaskDelay 20, vTaskResume Handle.handle_1, serial, vTaskDelay 500, serial,
          timeoutOccurred 0 false, serial,
          Event.read 0 500, timeoutOccurred 0 false, serial, vTaskDelay 50, serial,
          timeoutOccurred 0 false, serial] := by
  simp [task_2, task_2_for, task_2_body, loneLowReads, sensor_count, sensor_threshold]

/-! ## Suspend before drive, resume after drive -/

/-- C8: in a run of `task_2`, the suspends, actuator writes and resumes are,
in order, `n` repetitions of: one `vTaskSuspend(handle_1)`, the 452 writes of
`pulse_awaken`, one `vTaskResume(handle_1)`; every suspend is issued while
the Idle Task is not suspended and is followed at once by the whole of
`pulse_awaken`, the 20 ms delay and the resume; every write and every resume
is issued while the Idle Task is suspended.  Hence, in an interleaved run in
which the Idle Task takes no step while it is suspended, no step of the Idle
Task, so no idle-waveform write, lies between two writes of one awaken
waveform. -/
theorem task_2_suspend_protocol (tick : Nat) (debug : Bool) (count thr : Nat)
    (reads : Nat → Nat → ReadResult) (rounds k : Nat) (g : List (TaskId × Event))
    (hg : Interleaving tick debug count thr reads g) :
    (∃ n, drive (task_2 tick debug count thr reads rounds k).trace
        = (List.replicate n (vTaskSuspend Handle.handle_1
            :: (awakenLevels.map (ledcWrite PWM_channel)
              ++ [vTaskResume Handle.handle_1]))).flatten)
      ∧ awakenLevels.length = 452
      ∧ (∀ pre h post, (task_2 tick debug count thr reads rounds k).trace
            = pre ++ vTaskSuspend h :: post →
          h = Handle.handle_1 ∧ suspendedAfter pre = false
            ∧ ∃ rest, post = pulse_awaken tick
                ++ vTaskDelay (20 / tick) :: vTaskResume Handle.handle_1 :: rest)
      ∧ (∀ pre c d post, (task_2 tick debug count thr reads rounds k).trace
            = pre ++ ledcWrite c d :: post → suspendedAfter pre = true)
      ∧ (∀ pre h post, (task_2 tick debug count thr reads rounds k).trace
            = pre ++ vTaskResume h :: post →
          h = Handle.handle_1 ∧ suspendedAfter pre = true)
      ∧ (∀ pre mid post c1 d1 c2 d2,
          g = pre ++ (TaskId.monitor, ledcWrite c1 d1)
            :: (mid ++ (TaskId.monitor, ledcWrite c2 d2) :: post) →
          (TaskId.monitor, vTaskResume Handle.handle_1) ∉ mid →
          ∀ e, (TaskId.idle, e) ∉ mid) := by
  refine ⟨?_, ?_, ?_, ?_, ?_, ?_⟩
  · obtain ⟨n, hn⟩ := drive_of_shape tick _ (task_2_shape tick debug count thr reads rounds k)
    exact ⟨n, by rw [hn, drive_awakenBlock]⟩
  · rw [awakenLevels, List.length_append, ascending_length, descending_length]
  · intro pre h post hs
    have := protocol_task_2 tick debug count thr reads rounds k pre _ post hs
    simpa [Protocol] using this
  · intro pre c d post hs
    have := protocol_task_2 tick debug count thr reads rounds k pre _ post hs
    simpa [Protocol] using this
  · intro pre h post hs
    have := protocol_task_2 tick debug count thr reads rounds k pre _ post hs
    simpa [Protocol] using this
  · intro pre mid post c1 d1 c2 d2 hs hres
    exact no_idle_step_inside_awaken tick debug count thr reads g hg pre mid post c1 d1 _ hs hres

/-- C8 on the sample run, between the first two writes of its awaken
waveform. -/
theorem task_2_suspend_protocol_witness :
    Interleaving 1 true sensor_count sensor_threshold exReads exInterleaving
      ∧ (TaskId.monitor, vTaskResume Handle.handle_1) ∉ [(TaskId.monitor, vTaskDelay 20)]
      ∧ ∀ e, (TaskId.idle, e) ∉ [(TaskId.monitor, vTaskDelay 20)] :=
  ⟨exInterleaving_ok, by decide,
    (task_2_suspend_protocol 1 true sensor_count sensor_threshold exReads 1 0 exInterleaving
      exInterleaving_ok).2.2.2.2.2 _ _ _ _ _ _ _ exInterleaving_split (by decide)⟩

/-! ## Resuming the Idle Task -/

theorem writes_task_1 (tick : Nat) (debug : Bool) (n : Nat) :
    writes (task_1 tick debug n) = (List.replicate n idleCycle).flatten := by
  induction n with
  | zero => rfl
  | succ n ih =>
    rw [task_1, writes_append, ih, List.replicate_succ, List.flatten_cons, task_1_body,
      writes_append, writes_pulse_idle]
    cases debug <;> simp [writes, idleCycle]

theorem flatten_replicate_get (cyc : List Int) (n : Nat) :
    ∀ (k : Nat) (d : Int), ((List.replicate n cyc).flatten)[k]? = some d →
      cyc[k % cyc.length]? = some d := by
  induction n with
  | zero =>
    intro k d h
    simp at h
  | succ n ih =>
    intro k d h
    rw [List.replicate_succ, List.flatten_cons] at h
    by_cases hk : k < cyc.length
    · rw [List.getElem?_append_left hk] at h
      rw [Nat.mod_eq_of_lt hk]
      exact h
    · rw [List.getElem?_append_right (by omega)] at h
      have := ih _ _ h
      have hmod : k % cyc.length = (k - cyc.length) % cyc.length := by
        conv_lhs => rw [show k = (k - cyc.length) + cyc.length by omega]
        exact Nat.add_mod_right _ _
      rw [hmod]
      exact this

theorem idleCycle_length : idleCycle.length = 182 := by
  rw [idleCycle, List.length_append, ascending_length, descending_length]

theorem first_write_after_resume (tick : Nat) (debug : Bool) (count thr : Nat)
    (reads : Nat → Nat → ReadResult) (g : List (TaskId × Event))
    (hg : Interleaving tick debug count thr reads g) (pre post : List (TaskId × Event))
    (hsplit : g = pre ++ (TaskId.monitor, vTaskResume Handle.handle_1) :: post) (d : Int)
    (hd : firstWrite (project TaskId.idle post) = some d) :
    d = idleLevel (writes (project TaskId.idle pre)).length := by
  obtain ⟨n, rest, hidle⟩ := hg.idle
  have hproj : project TaskId.idle g = project TaskId.idle pre ++ project TaskId.idle post := by
    rw [hsplit, project_append]
    simp [project]
  obtain ⟨w, hw⟩ : ∃ w, writes (project TaskId.idle post) = d :: w := by
    unfold firstWrite at hd
    cases hq : writes (project TaskId.idle post) with
    | nil => rw [hq] at hd; cases hd
    | cons x w =>
      rw [hq] at hd
      simp only [List.head?_cons, Option.some.injEq] at hd
      exact ⟨w, by rw [hd]⟩
  have hall : (List.replicate n idleCycle).flatten
      = writes (project TaskId.idle pre) ++ d :: (w ++ writes rest) := by
    rw [← writes_task_1 tick debug n, ← hidle, hproj, writes_append, writes_append, hw]
    simp
  have hget : ((List.replicate n idleCycle).flatten)[(writes (project TaskId.idle pre)).length]?
      = some d := by
    rw [hall, List.getElem?_append_right (Nat.le_refl _)]
    simp
  have := flatten_replicate_get idleCycle n _ _ hget
  rw [idleCycle_length] at this
  rw [idleLevel, List.getD_eq_getElem?_getD, this]
  rfl

theorem idleLevel_eq (k : Nat) :
    idleLevel k
      = if k % 182 < 91 then 30 + ((k % 182 : Nat) : Int) else 211 - ((k % 182 : Nat) : Int) := by
  have hk : k % 182 < 182 := Nat.mod_lt _ (by decide)
  unfold idleLevel
  generalize k % 182 = j at hk
  rw [List.getD_eq_getElem?_getD, idleCycle]
  split
  · rename_i hj
    rw [List.getElem?_append_left (by rw [ascending_length]; exact hj)]
    simp [ascending, List.getElem?_range, hj]
  · rename_i hj
    rw [List.getElem?_append_right (by rw [ascending_length]; omega), ascending_length]
    have h2 : j - 91 < 91 := by omega
    simp only [descending, List.getElem?_map, List.getElem?_range h2, Option.map_some',
      Option.getD_some]
    omega

/-- C9, as the code has it: the Idle Task keeps its place in the idle
waveform across suspend and resume.  In an interleaved run, the first level
the Idle Task writes after a resume is the level at position `j` of the idle
cycle, `j` being the number of levels it wrote before, modulo 182: that is
`30 + j` on the way up (`j < 91`) and `211 - j` on the way down; so it is 30
only when `j` is 0 or 181. -/
theorem idle_resumes_where_it_stopped (tick : Nat) (debug : Bool) (count thr : Nat)
    (reads : Nat → Nat → ReadResult) (g : List (TaskId × Event))
    (hg : Interleaving tick debug count thr reads g) (pre post : List (TaskId × Event))
    (hsplit : g = pre ++ (TaskId.monitor, vTaskResume Handle.handle_1) :: post) (d : Int)
    (hd : firstWrite (project TaskId.idle post) = some d) :
    d = idleLevel (writes (project TaskId.idle pre)).length
      ∧ (d = if (writes (project TaskId.idle pre)).length % 182 < 91
          then 30 + (((writes (project TaskId.idle pre)).length % 182 : Nat) : Int)
          else 211 - (((writes (project TaskId.idle pre)).length % 182 : Nat) : Int))
      ∧ (d = 30 ↔ (writes (project TaskId.idle pre)).length % 182 = 0
          ∨ (writes (project TaskId.idle pre)).length % 182 = 181) := by
  have h1 := first_write_after_resume tick debug count thr reads g hg pre post hsplit d hd
  have h2 := idleLevel_eq (writes (project TaskId.idle pre)).length
  have hk : (writes (project TaskId.idle pre)).length % 182 < 182 := Nat.mod_lt _ (by decide)
  rw [h2] at h1
  refine ⟨by rw [h2]; exact h1, h1, ?_⟩
  rw [h1]
  split <;> omega

/-- C9 on the sample run: the Idle Task, suspended after its first write,
writes 31 after the resume, the level at position 1 of the idle cycle. -/
theorem idle_resumes_where_it_stopped_witness :
    Interleaving 1 true sensor_count sensor_threshold exReads exInterleaving
      ∧ firstWrite (project TaskId.idle exAfter) = some 31
      ∧ (31 : Int) = idleLevel (writes (project TaskId.idle exBefore)).length :=
  ⟨exInterleaving_ok, rfl,
    (idle_resumes_where_it_stopped 1 true sensor_count sensor_threshold exReads exInterleaving
      exInterleaving_ok exBefore exAfter rfl 31 rfl).1⟩

/-- C9 fails as stated: in the sample run the Idle Task writes level 30, is
suspended during the delay that follows, and after the awaken cycle and the
resume the first level it writes is 31, not 30. -/
theorem idle_resumes_mid_cycle :
    Interleaving 1 true sensor_count sensor_threshold exReads exInterleaving
      ∧ exInterleaving = exBefore ++ (TaskId.monitor, vTaskResume Handle.handle_1) :: exAfter
      ∧ firstWrite (project TaskId.idle exAfter) = some 31
      ∧ (31 : Int) ≠ 30 :=
  ⟨exInterleaving_ok, rfl, rfl, by decide⟩

end ILight
